import Mathlib

/-!
# web-artifact-archiver: a shallow embedding of `main.js`

The action archives one URL per run: it classifies the URL (`normalizeUrl`),
probes it (`checkUrlStatus`), retrieves it with one of two strategies
(`archiveWithCurl`, `archiveWithWget`), records the outcome in a keyed
metadata store and regenerates two indexes (`updateReadme`, `updateIndex`).

Conventions of the embedding:

* a JavaScript string is the list of its UTF-16 code units, written `Str`;
* everything outside the process (the shell commands run by `execSync`,
  `fs.mkdirSync`, the `URL` constructor, the clock) is an oracle of `Env`;
* a JavaScript exception is the `none`/`Except.error` branch of the result;
* informational logging (`core.info`, `core.warning`, `core.error`) changes no
  state that the program reads back and is left out; `core.setFailed` is the
  `failed` flag of a run's outcome.
-/

namespace WebArchiver

/-- A JavaScript string: the sequence of its code units. -/
abbrev Str := List Char

/-! ## String primitives -/

/-- The method `String.prototype.startsWith` with a literal search string. -/
def startsWith (s p : Str) : Bool := p.isPrefixOf s

/-- The method `String.prototype.includes` for a one-character search string. -/
def includesChar (s : Str) (c : Char) : Bool := s.contains c

/-- The white space and line terminator code units that `trim` removes. -/
def isJsWhitespace (c : Char) : Bool :=
  let n := c.toNat
  n == 0x09 || n == 0x0A || n == 0x0B || n == 0x0C || n == 0x0D || n == 0x20 ||
  n == 0xA0 || n == 0x1680 || (0x2000 ≤ n && n ≤ 0x200A) || n == 0x2028 ||
  n == 0x2029 || n == 0x202F || n == 0x205F || n == 0x3000 || n == 0xFEFF

/-- The method `String.prototype.trim`. -/
def trim (s : Str) : Str :=
  ((s.dropWhile isJsWhitespace).reverse.dropWhile isJsWhitespace).reverse

/-! ## The URL classifier (`normalizeUrl`, lines 56-63) -/

/-- The object returned by `normalizeUrl`. -/
structure Normalized where
  url : Str
  useCurl : Bool
  deriving DecidableEq, Repr

/-- Rewrites a subreddit shorthand to its wiki page and selects the strategy. -/
def normalizeUrl (url : Str) : Normalized :=
  if startsWith url "r/".toList then
    let subredditUrl := "https://old.reddit.com/".toList ++ url ++ "/wiki".toList
    { url := subredditUrl, useCurl := true }
  else
    { url := url, useCurl := false }

/-! ## The environment -/

/-- The fields of a `URL` object that the program reads. -/
structure UrlObj where
  hostname : Str
  pathname : Str
  deriving DecidableEq, Repr

/-- Everything the program asks of the outside world.  `execSync cmd` is `none`
when the call throws (the command could not be run or exited non-zero) and the
captured standard output otherwise; `mkdirSync dir` is `false` when the call
throws; `parseUrl u` is `none` when `new URL(u)` throws; `today` is
`new Date().toISOString().split("T")[0]`. -/
structure Env where
  execSync : Str → Option Str
  mkdirSync : Str → Bool
  parseUrl : Str → Option UrlObj
  today : Str

/-- Runs a shell command and returns its trimmed output, `none` on failure
(`runCommand`, lines 24-30). -/
def runCommand (env : Env) (command : Str) : Option Str :=
  match env.execSync command with
  | some out => some (trim out)
  | none => none

/-! ## The reachability checker (`checkUrlStatus`, lines 68-88) -/

/-- The probe command line built on line 70. -/
def probeCommand (normalizedUrl : Str) : Str :=
  "curl -o /dev/null -s -w \"%\x7bhttp_code\x7d\" \"".toList ++ normalizedUrl ++ "\"".toList

/-- The decision taken on the probe's output (lines 72-87): `error` is the
thrown `Error` (after `core.setFailed`), `ok s` the returned string. -/
def classifyStatus (url : Str) (status : Option Str) : Except Str Str :=
  match status with
  | none => .error ("Failed to access ".toList ++ url)
  | some s =>
    if s = [] then .error ("Failed to access ".toList ++ url)
    else if s = "404".toList then .ok "404".toList
    else if startsWith s "5".toList then .error ("Failed to access ".toList ++ url)
    else .ok s

/-- The status the probe obtains (lines 69-70): the probe is issued against
the classified URL. -/
def probeStatus (env : Env) (url : Str) : Option Str :=
  let normalizedUrl := (normalizeUrl url).url
  runCommand env (probeCommand normalizedUrl)

/-- Probes the classified URL and classifies the status. -/
def checkUrlStatus (env : Env) (url : Str) : Except Str Str :=
  classifyStatus url (probeStatus env url)

/-! ## Node's `path` module (POSIX flavour)

The program runs `curl`, `wget` and `find` through a shell, so the POSIX
implementation of `path` is the one in force. -/

/-- One step of `normalizeString`: the segments kept so far and the next
segment.  Empty and `.` segments are dropped, `..` removes the previous
segment when there is one to remove, and is kept only above a relative root. -/
def normalizeStep (allowAboveRoot : Bool) (res : List Str) (seg : Str) : List Str :=
  if seg = [] ∨ seg = ".".toList then res
  else if seg = "..".toList then
    match res.getLast? with
    | none => if allowAboveRoot then ["..".toList] else []
    | some last =>
      if last = "..".toList then
        if allowAboveRoot then res ++ ["..".toList] else res
      else res.dropLast
  else res ++ [seg]

/-- The helper `normalizeString` of `path`: resolves `.` and `..` segments. -/
def normalizeString (path : Str) (allowAboveRoot : Bool) : Str :=
  ['/'].intercalate ((path.splitOn '/').foldl (normalizeStep allowAboveRoot) [])

/-- The function `path.posix.normalize`. -/
def pathNormalize (path : Str) : Str :=
  if path = [] then ".".toList
  else
    let isAbsolute := path.head? = some '/'
    let trailingSeparator := path.getLast? = some '/'
    let body := normalizeString path (!isAbsolute)
    if body = [] then
      if isAbsolute then "/".toList
      else if trailingSeparator then "./".toList else ".".toList
    else
      let body := if trailingSeparator then body ++ "/".toList else body
      if isAbsolute then '/' :: body else body

/-- The function `path.posix.join`: the non-empty arguments joined by `/`,
then normalized. -/
def pathJoin (args : List Str) : Str :=
  match args.filter (fun a => a ≠ []) with
  | [] => ".".toList
  | parts => pathNormalize (['/'].intercalate parts)

/-- The function `path.posix.basename` with one argument: trailing slashes are
ignored and the text after the last remaining slash is returned. -/
def pathBasename (path : Str) : Str :=
  let stripped := (path.reverse.dropWhile (fun c => c = '/'))
  (stripped.takeWhile (fun c => c ≠ '/')).reverse

/-! ## Strategy A: single-page fetch (`archiveWithCurl`, lines 93-118) -/

/-- Capture group 1 of `url.match(/r\/([^/]+)/)`: the regular expression is
tried at each position from the left; it matches where `r/` is followed by at
least one code unit other than `/`, and the greedy group takes the longest run
of such code units. -/
def matchSubreddit : Str → Option Str
  | [] => none
  | c :: cs =>
    if c = 'r' then
      match cs with
      | '/' :: rest =>
        let name := rest.takeWhile (fun x => x ≠ '/')
        if name ≠ [] then some name else matchSubreddit cs
      | _ => matchSubreddit cs
    else matchSubreddit cs

/-- The fetch command line built on line 109. -/
def curlCommand (userAgent outputPath url : Str) : Str :=
  "curl -L -A \"".toList ++ userAgent ++
  "\" --compressed --fail --retry 3 --max-time 30 -b \"over18=1\" -o \"".toList ++
  outputPath ++ "\" \"".toList ++ url ++ "\"".toList

/-- Archives a subreddit wiki with curl; `none` is the `null` result. -/
def archiveWithCurl (env : Env) (url archiveDir userAgent : Str) : Option Str :=
  match matchSubreddit url with
  | none => none
  | some subreddit =>
    let outputDir := pathJoin [archiveDir, "reddit".toList]
    if env.mkdirSync outputDir then
      let outputPath := pathJoin [outputDir, subreddit ++ ".html".toList]
      match env.execSync (curlCommand userAgent outputPath url) with
      | some _ => some outputPath
      | none => none
    else none

/-! ## Strategy B: site mirror (`archiveWithWget`, lines 123-147) -/

/-- The mirror command line built on line 129. -/
def wgetCommand (userAgent rateLimitOption archiveDir url : Str) : Str :=
  ("wget --mirror --convert-links --adjust-extension --page-requisites " ++
   "--no-parent -e robots=off --random-wait --user-agent=\"").toList ++ userAgent ++
  "\" --no-check-certificate ".toList ++ rateLimitOption ++ " -P ".toList ++
  archiveDir ++ " ".toList ++ url

/-- The cleanup command line built on line 140. -/
def findCommand (archiveDir : Str) : Str :=
  "find ".toList ++ archiveDir ++ " -name \"*.orig\" -type f -delete".toList

/-- The local path computed on lines 133-137 from the parsed URL. -/
def wgetOutputPath (urlObj : UrlObj) (archiveDir : Str) : Str :=
  let fileName := pathBasename urlObj.pathname
  if fileName ≠ [] ∧ includesChar fileName '.' then
    pathJoin [archiveDir, urlObj.hostname ++ urlObj.pathname]
  else
    pathJoin [archiveDir, urlObj.hostname, "index.html".toList]

/-- The bandwidth option of line 127: present when a rate is configured. -/
def rateLimitOption (limitRate : Str) : Str :=
  if limitRate ≠ [] then "--limit-rate=".toList ++ limitRate else []

/-- Mirrors a website with wget; `none` is the `null` result. -/
def archiveWithWget (env : Env) (url archiveDir limitRate userAgent : Str) : Option Str :=
  match env.execSync (wgetCommand userAgent (rateLimitOption limitRate) archiveDir url) with
  | none => none
  | some _ =>
    match env.parseUrl url with
    | none => none
    | some urlObj =>
      let outputPath := wgetOutputPath urlObj archiveDir
      match env.execSync (findCommand archiveDir) with
      | none => none
      | some _ => some outputPath

/-- Chooses the archiving method (`archiveWebsite`, lines 152-159). -/
def archiveWebsite (env : Env) (url archiveDir limitRate userAgent : Str) : Option Str :=
  let useCurl := (normalizeUrl url).useCurl
  if useCurl then archiveWithCurl env url archiveDir userAgent
  else archiveWithWget env url archiveDir limitRate userAgent

/-! ## The metadata store -/

/-- The `archivedPath` field of a record as a JavaScript value: a string,
`null`, or a property that is missing from the object. -/
inductive ArchivedPath where
  | path (p : Str)
  | null
  | absent
  deriving DecidableEq, Repr

/-- One record of the store: `{ lastArchived, archivedPath }`. -/
structure ArchiveRecord where
  lastArchived : Str
  archivedPath : ArchivedPath
  deriving DecidableEq, Repr

/-- The metadata object: its own enumerable properties in the order in which
`Object.entries` and `JSON.stringify` list them. -/
abbrev Metadata := List (Str × ArchiveRecord)

/-- The record stored under an own property key, if any. -/
def getOwn (metadata : Metadata) (key : Str) : Option ArchiveRecord :=
  (metadata.find? (fun e => e.1 = key)).map Prod.snd

/-- The entries of the store whose key is `key`. -/
def entriesFor (metadata : Metadata) (key : Str) : Metadata :=
  metadata.filter (fun e => e.1 = key)

/-- The value of a decimal numeral, for a string of ASCII digits. -/
def decimalValue? (s : Str) : Option Nat :=
  if s ≠ [] ∧ s.all Char.isDigit then
    some (s.foldl (fun acc c => 10 * acc + (c.toNat - '0'.toNat)) 0)
  else none

/-- A property key that is an array index: the canonical decimal numeral of an
integer below `2^32 - 1`.  Such keys are listed first, in ascending order. -/
def arrayIndex? (key : Str) : Option Nat :=
  match decimalValue? key with
  | some n =>
    if (key = "0".toList ∨ key.head? ≠ some '0') ∧ n < 4294967295 then some n else none
  | none => none

/-- The assignment `metadata[key] = value` on an ordinary object.  An own
property keeps its place and gets the new value.  Otherwise the key
`__proto__` reaches the accessor inherited from `Object.prototype`, which
replaces the prototype of the object and creates no own property; any other
key becomes a new own property, placed among the array indices when it is one
and after all other properties when it is not. -/
def setProperty (metadata : Metadata) (key : Str) (value : ArchiveRecord) : Metadata :=
  if metadata.any (fun e => e.1 = key) then
    metadata.map (fun e => if e.1 = key then (key, value) else e)
  else if key = "__proto__".toList then metadata
  else
    match arrayIndex? key with
    | some i =>
      let smaller := fun (e : Str × ArchiveRecord) =>
        match arrayIndex? e.1 with
        | some j => decide (j < i)
        | none => false
      metadata.takeWhile smaller ++ (key, value) :: metadata.dropWhile smaller
    | none => metadata ++ [(key, value)]

/-- The metadata file on disk: missing, present but not readable as JSON, or
the JSON text of a metadata object (`JSON.parse` of the text written by
`JSON.stringify` gives back the entries, in order). -/
inductive MetadataFile where
  | missing
  | corrupt
  | json (metadata : Metadata)
  deriving DecidableEq, Repr

/-- The three artifacts the run owns: the metadata file and the two indexes
(`none` for an index that does not exist). -/
structure World where
  metadataFile : MetadataFile
  readme : Option Str
  index : Option Str
  deriving DecidableEq, Repr

/-- Loads the metadata, or starts from the empty object
(`loadArchiveMetadata`, lines 35-44). -/
def loadArchiveMetadata (w : World) : Metadata :=
  match w.metadataFile with
  | .json metadata => metadata
  | .corrupt => []
  | .missing => []

/-- Overwrites the metadata file (`saveArchiveMetadata`, lines 49-51). -/
def saveArchiveMetadata (w : World) (metadata : Metadata) : World :=
  { w with metadataFile := .json metadata }

/-! ## Configuration (lines 6-19) -/

/-- The action inputs as `core.getInput` returns them (the empty string for an
input that is not set) and the `GITHUB_REPOSITORY` environment variable.  The
input `url` is required: with an empty `url` the program stops on line 6,
before `run` is called. -/
structure Inputs where
  url : Str
  limit_rate : Str
  user_agent : Str
  archive_dir : Str
  contact_email : Str
  schedule_description : Str
  githubRepository : Option Str

/-- The expression `a || b` on strings: the empty string is falsy. -/
def orElse (a b : Str) : Str := if a ≠ [] then a else b

/-- A string or `undefined`, as a template literal prints it. -/
def templateString (v : Option Str) : Str :=
  match v with
  | some s => s
  | none => "undefined".toList

/-- The bandwidth cap (line 7). -/
def limitRate (inp : Inputs) : Str := orElse inp.limit_rate []

/-- The client identity string, with its browser default (line 8). -/
def userAgent (inp : Inputs) : Str :=
  orElse inp.user_agent
    ("Mozilla/5.0 (Windows NT 10.0; Win64; x64) AppleWebKit/537.36 " ++
     "(KHTML, like Gecko) Chrome/112.0.0.0 Safari/537.36").toList

/-- The storage root, `archive` by default (line 9). -/
def ARCHIVE_DIR (inp : Inputs) : Str := orElse inp.archive_dir "archive".toList

/-- The path of the metadata file, the `metadataFile` of a `World`. -/
def METADATA_PATH (inp : Inputs) : Str := pathJoin [ARCHIVE_DIR inp, "metadata.json".toList]

/-- The path of the document-form index, the `readme` of a `World`. -/
def README_PATH : Str := "README.md".toList

/-- The path of the page-form index, the `index` of a `World`. -/
def INDEX_PATH : Str := "index.html".toList

/-- The owner part of `GITHUB_REPOSITORY` (line 13). -/
def repoOwner (inp : Inputs) : Option Str :=
  inp.githubRepository.bind (fun s => (s.splitOn '/')[0]?)

/-- The name part of `GITHUB_REPOSITORY` (line 14). -/
def repoName (inp : Inputs) : Option Str :=
  inp.githubRepository.bind (fun s => (s.splitOn '/')[1]?)

/-- The optional contact address (line 15). -/
def contactEmail (inp : Inputs) : Str := orElse inp.contact_email []

/-- The address of the published archive (line 16). -/
def githubPagesUrl (inp : Inputs) : Str :=
  "https://".toList ++ templateString (repoOwner inp) ++ ".github.io/".toList ++
  templateString (repoName inp) ++ "/".toList

/-- The address of the ZIP download (line 17). -/
def zipDownloadUrl (inp : Inputs) : Str :=
  "https://github.com/".toList ++ templateString (repoOwner inp) ++ "/".toList ++
  templateString (repoName inp) ++ "/archive/refs/heads/main.zip".toList

/-- The address of the issue tracker (line 18). -/
def githubIssuesUrl (inp : Inputs) : Str :=
  "https://github.com/".toList ++ templateString (repoOwner inp) ++ "/".toList ++
  templateString (repoName inp) ++ "/issues".toList

/-- The optional schedule text (line 19). -/
def scheduleDescription (inp : Inputs) : Str := orElse inp.schedule_description []

/-! ## The index renderers (`updateReadme`, `updateIndex`) -/

/-- The symbol written before `FAILED` on lines 173 and 216, spelled as the
source file spells it: three characters, the bytes of the cross mark U+274C
read in the Mac OS Roman encoding. -/
def crossMark : Str := "‚ùå".toList

/-- The status cell: `data.lastArchived === "FAILED" ? "<mark> FAILED" : data.lastArchived`. -/
def statusText (data : ArchiveRecord) : Str :=
  if data.lastArchived = "FAILED".toList then crossMark ++ " FAILED".toList
  else data.lastArchived

/-- The link target: `data.archivedPath || '#'`.  The empty string, `null` and
`undefined` are the falsy values the field can hold. -/
def linkTarget (data : ArchiveRecord) : Str :=
  match data.archivedPath with
  | .path p => if p ≠ [] then p else "#".toList
  | .null => "#".toList
  | .absent => "#".toList

/-- One row of the README table (line 174). -/
def readmeRow (entry : Str × ArchiveRecord) : Str :=
  "| [".toList ++ entry.1 ++ "](".toList ++ linkTarget entry.2 ++ ") | ".toList ++
  statusText entry.2 ++ " |".toList

/-- The table body of the README (lines 171-176). -/
def readmeTableRows (metadata : Metadata) : Str :=
  ['\n'].intercalate (metadata.map readmeRow)

/-- One row of the HTML table (line 217). -/
def indexRow (entry : Str × ArchiveRecord) : Str :=
  "<tr><td><a href=\"".toList ++ linkTarget entry.2 ++ "\">".toList ++ entry.1 ++
  "</a></td><td>".toList ++ statusText entry.2 ++ "</td></tr>".toList

/-- The table body of the HTML index (lines 214-219). -/
def indexTableRows (metadata : Metadata) : Str :=
  ['\n'].intercalate (metadata.map indexRow)

/-- The optional mail link of the README (line 198). -/
def readmeContact (inp : Inputs) : Str :=
  if contactEmail inp ≠ [] then
    " Or you can [send an email](mailto:".toList ++ contactEmail inp ++ ").".toList
  else []

/-- The optional mail link of the HTML index (line 279). -/
def indexContact (inp : Inputs) : Str :=
  if contactEmail inp ≠ [] then
    " Or you can <a href=\"mailto:".toList ++ contactEmail inp ++
    "\">send an email</a>.".toList
  else []

/-- The README template up to the table (lines 178-189). -/
def readmeBefore (inp : Inputs) : Str :=
  "# Web Archive\n".toList ++
  "\n".toList ++
  "This repository contains archived copies of various websites.\n".toList ++
  "\n".toList ++
  "## **Accessing the Archive**\n".toList ++
  "### Online, no download required\n".toList ++
  "[View the archive](".toList ++
  githubPagesUrl inp ++
  ")\n".toList ++
  "\n".toList ++
  "### Locally\n".toList ++
  "[Download ZIP](".toList ++
  zipDownloadUrl inp ++
  ") and extract the contents. Open `index.html` in your browser to navigate the archive.\n".toList ++
  "\n".toList ++
  "## **Archived Websites**\n".toList

/-- The header row of the README table (line 190). -/
def readmeHeaderRow : Str :=
  "| Website | Description | Last Successful Archive |\n".toList

/-- The separator row of the README table (line 191). -/
def readmeSeparatorRow : Str :=
  "|---------|------------|-------------------------|\n".toList

/-- The README template after the table (lines 192-199). -/
def readmeAfter (inp : Inputs) : Str :=
  "\n".toList ++
  "\n".toList ++
  "## **Mirroring**\n".toList ++
  "If you'd like to create a mirror of this archive, simply fork this repository or download the archive.\n".toList ++
  "\n".toList ++
  "## **Contact**\n".toList ++
  "If you have any questions, feel free to open an issue on [GitHub](".toList ++
  githubIssuesUrl inp ++
  ").".toList ++
  readmeContact inp ++
  "\n".toList ++
  "  ".toList

/-- The text written to `README.md` (lines 178-199). -/
def newReadme (inp : Inputs) (metadata : Metadata) : Str :=
  let tableRows := readmeTableRows metadata
  readmeBefore inp ++ readmeHeaderRow ++ readmeSeparatorRow ++ tableRows ++ readmeAfter inp

/-- Regenerates `README.md` (`updateReadme`, lines 164-202); the previous
content is read and not used. -/
def updateReadme (inp : Inputs) (w : World) (metadata : Metadata) : World :=
  { w with readme := some (newReadme inp metadata) }

/-- The HTML template up to the table header (lines 221-269). -/
def indexBefore (inp : Inputs) : Str :=
  "<!DOCTYPE html>\n".toList ++
  "<html lang=\"en\">\n".toList ++
  "<head>\n".toList ++
  "    <meta charset=\"UTF-8\">\n".toList ++
  "    <meta name=\"viewport\" content=\"width=device-width, initial-scale=1.0\">\n".toList ++
  "    <title>Archived Websites</title>\n".toList ++
  "    <style>\n".toList ++
  "        body \x7b\n".toList ++
  "            font-family: Arial, sans-serif;\n".toList ++
  "            margin: 40px;\n".toList ++
  "            line-height: 1.6;\n".toList ++
  "            max-width: 800px;\n".toList ++
  "        \x7d\n".toList ++
  "        h1, h2 \x7b\n".toList ++
  "            color: #333;\n".toList ++
  "        \x7d\n".toList ++
  "        table \x7b\n".toList ++
  "            width: 100%;\n".toList ++
  "            border-collapse: collapse;\n".toList ++
  "            margin-top: 20px;\n".toList ++
  "        \x7d\n".toList ++
  "        th, td \x7b\n".toList ++
  "            border: 1px solid #ddd;\n".toList ++
  "            padding: 8px;\n".toList ++
  "            text-align: left;\n".toList ++
  "        \x7d\n".toList ++
  "        th \x7b\n".toList ++
  "            background-color: #f4f4f4;\n".toList ++
  "        \x7d\n".toList ++
  "        a \x7b\n".toList ++
  "            color: #007bff;\n".toList ++
  "            text-decoration: none;\n".toList ++
  "        \x7d\n".toList ++
  "        a:hover \x7b\n".toList ++
  "            text-decoration: underline;\n".toList ++
  "        \x7d\n".toList ++
  "    </style>\n".toList ++
  "</head>\n".toList ++
  "<body>\n".toList ++
  "\n".toList ++
  "    <h1>Archived Websites</h1>\n".toList ++
  "    <p>".toList ++
  scheduleDescription inp ++
  "</p>\n".toList ++
  "\n".toList ++
  "    <h2>Accessing the Archive</h2>\n".toList ++
  "    <p><strong>Online, no download required:</strong> <a href=\"".toList ++
  githubPagesUrl inp ++
  "\">".toList ++
  githubPagesUrl inp ++
  "</a></p>\n".toList ++
  "    <p><strong>Locally:</strong> <a href=\"".toList ++
  zipDownloadUrl inp ++
  "\">Download ZIP</a> and extract the contents.</p>\n".toList ++
  "\n".toList ++
  "    <h2>List of Archived Websites</h2>\n".toList ++
  "    <table>\n".toList

/-- The header row of the HTML table (lines 270-274). -/
def indexHeaderRow : Str :=
  "        <tr>\n".toList ++
  "            <th>Website</th>\n".toList ++
  "            <th>Description</th>\n".toList ++
  "            <th>Last Successful Archive</th>\n".toList ++
  "        </tr>\n".toList

/-- The HTML template after the table body (lines 275-282). -/
def indexAfter (inp : Inputs) : Str :=
  "\n".toList ++
  "    </table>\n".toList ++
  "\n".toList ++
  "    <h2>Contact</h2>\n".toList ++
  "    <p>If you have questions, open an issue on <a href=\"".toList ++
  githubIssuesUrl inp ++
  "\">GitHub</a>.".toList ++
  indexContact inp ++
  "</p>\n".toList ++
  "\n".toList ++
  "</body>\n".toList ++
  "</html>".toList

/-- The text written to `index.html` (lines 221-282). -/
def newIndex (inp : Inputs) (metadata : Metadata) : Str :=
  let tableRows := indexTableRows metadata
  indexBefore inp ++ indexHeaderRow ++ "        ".toList ++ tableRows ++ indexAfter inp

/-- Regenerates `index.html` (`updateIndex`, lines 207-285); the previous
content is read and not used. -/
def updateIndex (inp : Inputs) (w : World) (metadata : Metadata) : World :=
  { w with index := some (newIndex inp metadata) }

/-! ## The run orchestrator (`run`, lines 290-328) -/

/-- What a run leaves behind: the artifacts, whether `core.setFailed` was
called, and two observations of the run itself: the status the probe
obtained (`none` when the probe was never issued) and the result of the
retrieval (`none` when no retrieval strategy was invoked). -/
structure Outcome where
  world : World
  failed : Bool
  probe : Option (Option Str)
  retrieval : Option (Option Str)
  deriving DecidableEq, Repr

/-- The record written after the retrieval (lines 313-319): a truthy path is a
success, `null` (or an empty path) a failure. -/
def recordFor (archiveDate : Str) (archivedPath : Option Str) : ArchiveRecord :=
  match archivedPath with
  | some p =>
    if p ≠ [] then { lastArchived := archiveDate, archivedPath := .path p }
    else { lastArchived := "FAILED".toList, archivedPath := .null }
  | none => { lastArchived := "FAILED".toList, archivedPath := .null }

/-- The main function.  An exception thrown inside the `try` block ends the run
in the `catch` clause, which calls `core.setFailed`; writes to the three
artifacts are taken to succeed. -/
def run (inp : Inputs) (env : Env) (w : World) : Outcome :=
  let url := inp.url
  if env.mkdirSync (ARCHIVE_DIR inp) then
    let metadata := loadArchiveMetadata w
    let probed := probeStatus env url
    match checkUrlStatus env url with
    | .error _ => { world := w, failed := true, probe := some probed, retrieval := none }
    | .ok status =>
      if status = "404".toList then
        { world := w, failed := false, probe := some probed, retrieval := none }
      else
        let archivedPath := archiveWebsite env url (ARCHIVE_DIR inp) (limitRate inp) (userAgent inp)
        let archiveDate := env.today
        let metadata := setProperty metadata url (recordFor archiveDate archivedPath)
        let w := saveArchiveMetadata w metadata
        let w := updateReadme inp w metadata
        let w := updateIndex inp w metadata
        { world := w, failed := false, probe := some probed, retrieval := some archivedPath }
  else
    { world := w, failed := true, probe := none, retrieval := none }

/-! ## Vocabulary of the statements -/

/-- The number a status line carries when it is a three-digit HTTP status
code, the form in which the probe prints `%\x7bhttp_code\x7d`. -/
def httpStatusCode? (s : Str) : Option Nat :=
  if s.length = 3 then decimalValue? s else none

/-- The check ended in the thrown error. -/
def isFatal (r : Except Str Str) : Bool :=
  match r with
  | .error _ => true
  | .ok _ => false

/-- The link target as the unamended reading has it: the stored path
whenever the field holds a string, the placeholder for `null` and for a
missing field. -/
def linkTargetOfString (data : ArchiveRecord) : Str :=
  match data.archivedPath with
  | .path p => p
  | .null => "#".toList
  | .absent => "#".toList

/-- The number of places at which `pat` occurs in `s`. -/
def countOccurrences (pat : Str) : Str → Nat
  | [] => if pat = [] then 1 else 0
  | c :: cs => (if pat.isPrefixOf (c :: cs) then 1 else 0) + countOccurrences pat cs

/-- The number of cells of a Markdown table row: the pipes delimit the cells. -/
def markdownCells (row : Str) : Nat := row.count '|' - 1

/-- The number of cells of an HTML table row: its `<th>` and `<td>` elements. -/
def htmlCells (row : Str) : Nat :=
  countOccurrences "<th>".toList row + countOccurrences "<td>".toList row

/-- Right after the prefix `pre`, the string `u` holds `r/` followed by a code
unit other than `/`: an occurrence of the subreddit pattern. -/
def SubredditAt (u pre : Str) : Prop :=
  ∃ c post, c ≠ '/' ∧ u = pre ++ "r/".toList ++ c :: post

/-- A path segment that `normalizeString` keeps as it is: not empty, not `.`,
not `..`, and free of `/`. -/
def PlainSegment (s : Str) : Prop :=
  s ≠ [] ∧ s ≠ ".".toList ∧ s ≠ "..".toList ∧ '/' ∉ s

/-- A segment list in normal form: no empty or `.` segment, no `/` inside a
segment, and `..` only in a leading block above a relative root. -/
def NormalSegs (allowAboveRoot : Bool) (S : List Str) : Prop :=
  (∀ s ∈ S, s ≠ [] ∧ s ≠ ".".toList ∧ '/' ∉ s) ∧
  ∀ R T, S = R ++ "..".toList :: T → allowAboveRoot = true ∧ ∀ r ∈ R, r = "..".toList

/-! ## Concrete environments and inputs for the worked examples -/

/-- An environment whose every command prints `out` and succeeds. -/
def envPrinting (out : Str) : Env :=
  { execSync := fun _ => some out
    mkdirSync := fun _ => true
    parseUrl := fun _ => none
    today := "2024-05-01".toList }

/-- The inputs of a run on `url` with every optional input left unset. -/
def inputsFor (url : Str) : Inputs :=
  { url := url
    limit_rate := []
    user_agent := []
    archive_dir := []
    contact_email := []
    schedule_description := []
    githubRepository := some "owner/repo".toList }

/-- A store that holds one record, with both indexes present. -/
def priorWorld : World :=
  { metadataFile := .json
      [("https://example.org".toList,
        { lastArchived := "2024-04-01".toList
          archivedPath := .path "archive/example.org/index.html".toList })]
    readme := some "old readme".toList
    index := some "old index".toList }

/-- An environment in which exactly the commands of `ok` succeed (printing
nothing) and every directory can be created. -/
def envAccepting (ok : List Str) : Env :=
  { execSync := fun cmd => if cmd ∈ ok then some [] else none
    mkdirSync := fun _ => true
    parseUrl := fun _ => none
    today := "2024-05-01".toList }

/-- The fetch of the wiki page of `r/testsub` into `archive/reddit`. -/
def wikiFetch : Str :=
  curlCommand "UA".toList "archive/reddit/testsub.html".toList
    "https://old.reddit.com/r/testsub/wiki".toList

/-- A store whose one record holds the empty string as its path. -/
def emptyPathStore : Metadata :=
  [("https://example.com".toList,
    { lastArchived := "2024-05-01".toList, archivedPath := .path [] })]

/-- A store with one successfully archived site. -/
def oneSiteStore : Metadata :=
  [("https://example.com".toList,
    { lastArchived := "2024-05-01".toList
      archivedPath := .path "archive/example.com/index.html".toList })]

/-- The host and path the `URL` constructor yields for three addresses. -/
def parseExamples (u : Str) : Option UrlObj :=
  if u = "https://example.com".toList then
    some { hostname := "example.com".toList, pathname := "/".toList }
  else if u = "https://example.com/docs/page.html".toList then
    some { hostname := "example.com".toList, pathname := "/docs/page.html".toList }
  else if u = "https://example.com/v1.0/".toList then
    some { hostname := "example.com".toList, pathname := "/v1.0/".toList }
  else none

/-- An environment in which exactly the commands of `ok` succeed and the
`URL` constructor knows the three example addresses. -/
def envMirroring (ok : List Str) : Env :=
  { execSync := fun cmd => if cmd ∈ ok then some [] else none
    mkdirSync := fun _ => true
    parseUrl := parseExamples
    today := "2024-05-01".toList }

/-- The mirror command for `url` into `archive` with no rate cap. -/
def mirrorOf (url : Str) : Str :=
  wgetCommand "UA".toList (rateLimitOption []) "archive".toList url

/-- The environment of a run on `https://example.com` in which the probe
prints `200` and the mirror and cleanup commands succeed. -/
def envExampleCom : Env :=
  { execSync := fun cmd =>
      if cmd = probeCommand "https://example.com".toList then some "200\n".toList
      else if cmd = wgetCommand (userAgent (inputsFor "https://example.com".toList))
          (rateLimitOption []) "archive".toList "https://example.com".toList then some []
      else if cmd = findCommand "archive".toList then some []
      else none
    mkdirSync := fun _ => true
    parseUrl := parseExamples
    today := "2024-05-01".toList }

/-! ## The URL classifier -/

theorem startsWith_iff (s p : Str) : startsWith s p = true ↔ ∃ rest, s = p ++ rest := by
  unfold startsWith
  rw [List.isPrefixOf_iff_prefix]
  constructor
  · rintro ⟨t, ht⟩
    exact ⟨t, ht.symm⟩
  · rintro ⟨t, ht⟩
    exact ⟨t, ht.symm⟩

/-- C1: a URL that begins with the two characters `r/` is rewritten to
`https://old.reddit.com/<url>/wiki` and sent to the single-page fetch; every
other URL is returned unchanged and sent to the site mirror. -/
theorem normalizeUrl_classifies (u : Str) :
    ((∃ rest, u = "r/".toList ++ rest) →
      normalizeUrl u =
        { url := "https://old.reddit.com/".toList ++ u ++ "/wiki".toList, useCurl := true }) ∧
    ((¬ ∃ rest, u = "r/".toList ++ rest) →
      normalizeUrl u = { url := u, useCurl := false }) := by
  constructor
  · intro h
    have hs : startsWith u "r/".toList = true := (startsWith_iff _ _).2 h
    unfold normalizeUrl
    rw [if_pos hs]
  · intro h
    have hs : ¬ startsWith u "r/".toList = true := fun hc => h ((startsWith_iff _ _).1 hc)
    unfold normalizeUrl
    rw [if_neg hs]

/-- C1 at `r/testsub` and at `https://example.com`. -/
theorem normalizeUrl_classifies_witness :
    normalizeUrl "r/testsub".toList =
      { url := "https://old.reddit.com/r/testsub/wiki".toList, useCurl := true } ∧
    normalizeUrl "https://example.com".toList =
      { url := "https://example.com".toList, useCurl := false } :=
  ⟨(normalizeUrl_classifies "r/testsub".toList).1 ⟨"testsub".toList, rfl⟩,
   (normalizeUrl_classifies "https://example.com".toList).2 (by
      rintro ⟨rest, h⟩
      simp at h)⟩

/-! ## The reachability checker -/

theorem char_eq_of_toNat {a b : Char} (h : a.toNat = b.toNat) : a = b :=
  Char.ext (UInt32.ext h)

theorem isDigit_bounds {c : Char} (h : c.isDigit = true) : 48 ≤ c.toNat ∧ c.toNat ≤ 57 := by
  simp only [Char.isDigit, Bool.and_eq_true, decide_eq_true_eq, ge_iff_le] at h
  obtain ⟨h1, h2⟩ := h
  rw [UInt32.le_def] at h1 h2
  exact ⟨h1, h2⟩

theorem startsWith_five_iff (s : Str) : startsWith s "5".toList = true ↔ s.head? = some '5' := by
  rw [startsWith_iff]
  constructor
  · rintro ⟨rest, rfl⟩
    rfl
  · intro h
    cases s with
    | nil => simp at h
    | cons c cs =>
      simp only [List.head?_cons, Option.some.injEq] at h
      exact ⟨cs, by rw [h]; rfl⟩

/-- For a three-digit status code the leading digit is `5` exactly when the
code lies in 500-599. -/
theorem head_five_iff_code {s : Str} {n : Nat} (h : httpStatusCode? s = some n) :
    s.head? = some '5' ↔ 500 ≤ n ∧ n ≤ 599 := by
  unfold httpStatusCode? at h
  split at h
  · rename_i hlen
    obtain ⟨a, b, c, rfl⟩ := List.length_eq_three.1 hlen
    unfold decimalValue? at h
    split at h
    · rename_i hd
      obtain ⟨-, hall⟩ := hd
      simp only [List.all_cons, List.all_nil, Bool.and_true, Bool.and_eq_true] at hall
      obtain ⟨ha, hb, hc⟩ := hall
      have ba := isDigit_bounds ha
      have bb := isDigit_bounds hb
      have bc := isDigit_bounds hc
      simp only [List.foldl_cons, List.foldl_nil, Option.some.injEq] at h
      have h5 : ('5' : Char).toNat = 53 := by decide
      have h0 : ('0' : Char).toNat = 48 := by decide
      rw [h0] at h
      simp only [List.head?_cons, Option.some.injEq]
      constructor
      · intro e
        rw [e, h5] at h
        omega
      · intro hn
        apply char_eq_of_toNat
        rw [h5]
        omega
    · exact absurd h (by simp)
  · exact absurd h (by simp)

theorem classifyStatus_empty (url : Str) :
    classifyStatus url (some []) = .error ("Failed to access ".toList ++ url) := rfl

theorem classifyStatus_404 (url : Str) :
    classifyStatus url (some "404".toList) = .ok "404".toList := rfl

theorem classifyStatus_five (url s : Str) (h0 : s ≠ []) (h4 : s ≠ "404".toList)
    (h5 : startsWith s "5".toList = true) :
    classifyStatus url (some s) = .error ("Failed to access ".toList ++ url) := by
  show (if s = [] then _ else if s = "404".toList then _ else
    if startsWith s "5".toList = true then _ else _) = _
  rw [if_neg h0, if_neg h4, if_pos h5]

theorem classifyStatus_other (url s : Str) (h0 : s ≠ []) (h4 : s ≠ "404".toList)
    (h5 : ¬ startsWith s "5".toList = true) :
    classifyStatus url (some s) = .ok s := by
  show (if s = [] then _ else if s = "404".toList then _ else
    if startsWith s "5".toList = true then _ else _) = _
  rw [if_neg h0, if_neg h4, if_neg h5]

theorem isFatal_iff (r : Except Str Str) : isFatal r = true ↔ ∃ e, r = .error e := by
  cases r with
  | error e => exact ⟨fun _ => ⟨e, rfl⟩, fun _ => rfl⟩
  | ok s =>
    constructor
    · intro h
      cases h
    · rintro ⟨e, he⟩
      cases he

theorem classifyStatus_fatal_iff (url : Str) (status : Option Str) :
    isFatal (classifyStatus url status) = true ↔
      (status = none ∨ status = some [] ∨ ∃ s, status = some s ∧ s.head? = some '5') := by
  rw [isFatal_iff]
  cases status with
  | none => exact ⟨fun _ => Or.inl rfl, fun _ => ⟨_, rfl⟩⟩
  | some s =>
    by_cases h0 : s = []
    · subst h0
      exact ⟨fun _ => Or.inr (Or.inl rfl), fun _ => ⟨_, rfl⟩⟩
    · by_cases h4 : s = "404".toList
      · subst h4
        constructor
        · rintro ⟨e, he⟩
          rw [classifyStatus_404] at he
          cases he
        · rintro (h | h | ⟨t, ht, h5⟩)
          · cases h
          · exact absurd (Option.some.inj h) h0
          · rw [← Option.some.inj ht] at h5
            exact absurd h5 (by decide)
      · by_cases h5 : startsWith s "5".toList = true
        · rw [classifyStatus_five url s h0 h4 h5]
          exact ⟨fun _ => Or.inr (Or.inr ⟨s, rfl, (startsWith_five_iff s).1 h5⟩),
            fun _ => ⟨_, rfl⟩⟩
        · rw [classifyStatus_other url s h0 h4 h5]
          constructor
          · rintro ⟨e, he⟩
            cases he
          · rintro (h | h | ⟨t, ht, h5'⟩)
            · cases h
            · exact absurd (Option.some.inj h) h0
            · rw [← Option.some.inj ht] at h5'
              exact absurd ((startsWith_five_iff s).2 h5') h5

theorem classifyStatus_skip_iff (url : Str) (status : Option Str) :
    classifyStatus url status = .ok "404".toList ↔ status = some "404".toList := by
  cases status with
  | none =>
    constructor
    · intro h
      cases h
    · intro h
      cases h
  | some s =>
    by_cases h0 : s = []
    · subst h0
      rw [classifyStatus_empty]
      constructor
      · intro h
        cases h
      · intro h
        exact absurd (Option.some.inj h) (by decide)
    · by_cases h4 : s = "404".toList
      · subst h4
        exact ⟨fun _ => rfl, fun _ => rfl⟩
      · by_cases h5 : startsWith s "5".toList = true
        · rw [classifyStatus_five url s h0 h4 h5]
          constructor
          · intro h
            cases h
          · intro h
            exact absurd (Option.some.inj h) h4
        · rw [classifyStatus_other url s h0 h4 h5]
          constructor
          · intro h
            exact absurd (Except.ok.inj h) h4
          · intro h
            exact absurd (Option.some.inj h) h4

theorem classifyStatus_continue (url : Str) (s : Str) (h0 : s ≠ [])
    (h4 : s ≠ "404".toList) (h5 : s.head? ≠ some '5') :
    classifyStatus url (some s) = .ok s :=
  classifyStatus_other url s h0 h4 (fun hc => h5 ((startsWith_five_iff s).1 hc))

/-- C2: the probe outcome decides the check.  It ends in the fatal error
exactly when no status was obtained (absent or empty) or the status leads with
the digit `5`; it returns the skip result `404` exactly when the status is
`404`; every other status is returned unchanged.  For a three-digit status code
the fatal class is the range 500-599, and a code outside that range other than
404 is returned unchanged. -/
theorem checkUrlStatus_classification (env : Env) (url : Str) :
    (isFatal (checkUrlStatus env url) = true ↔
      (probeStatus env url = none ∨ probeStatus env url = some [] ∨
        ∃ s, probeStatus env url = some s ∧ s.head? = some '5')) ∧
    (checkUrlStatus env url = .ok "404".toList ↔ probeStatus env url = some "404".toList) ∧
    (∀ s, probeStatus env url = some s → s ≠ [] → s ≠ "404".toList →
      s.head? ≠ some '5' → checkUrlStatus env url = .ok s) ∧
    (∀ s n, probeStatus env url = some s → httpStatusCode? s = some n →
      ((isFatal (checkUrlStatus env url) = true ↔ 500 ≤ n ∧ n ≤ 599) ∧
       (¬ (500 ≤ n ∧ n ≤ 599) → n ≠ 404 → checkUrlStatus env url = .ok s))) := by
  unfold checkUrlStatus
  refine ⟨classifyStatus_fatal_iff _ _, classifyStatus_skip_iff _ _, ?_, ?_⟩
  · intro s hs h0 h4 h5
    rw [hs]
    exact classifyStatus_continue url s h0 h4 h5
  · intro s n hs hn
    have hne : s ≠ [] := by
      rintro rfl
      simp [httpStatusCode?] at hn
    have hiff := head_five_iff_code hn
    constructor
    · rw [classifyStatus_fatal_iff, hs]
      constructor
      · rintro (h | h | ⟨t, ht, h5⟩)
        · simp at h
        · exact absurd (Option.some.inj h) hne
        · rw [← Option.some.inj ht] at h5
          exact hiff.1 h5
      · intro h
        exact Or.inr (Or.inr ⟨s, rfl, hiff.2 h⟩)
    · intro hnot h404
      rw [hs]
      apply classifyStatus_continue url s hne
      · rintro rfl
        have : httpStatusCode? "404".toList = some 404 := by decide
        rw [this] at hn
        exact h404 (Option.some.inj hn).symm
      · exact fun h5 => hnot (hiff.1 h5)

/-- C2 on the probe output `503`: the check is fatal. -/
theorem checkUrlStatus_classification_witness :
    isFatal (checkUrlStatus (envPrinting "503\n".toList) "https://example.com".toList) =
      true :=
  ((checkUrlStatus_classification (envPrinting "503\n".toList)
      "https://example.com".toList).2.2.2 "503".toList 503 (by decide) (by decide)).1.2
    (by decide)

/-! ## The run orchestrator -/

theorem run_of_mkdir_fails (inp : Inputs) (env : Env) (w : World)
    (hm : env.mkdirSync (ARCHIVE_DIR inp) = false) :
    run inp env w = { world := w, failed := true, probe := none, retrieval := none } := by
  unfold run
  simp only [hm]
  rfl

theorem run_of_fatal (inp : Inputs) (env : Env) (w : World)
    (hm : env.mkdirSync (ARCHIVE_DIR inp) = true) (e : Str)
    (hc : checkUrlStatus env inp.url = .error e) :
    run inp env w =
      { world := w, failed := true, probe := some (probeStatus env inp.url),
        retrieval := none } := by
  unfold run
  simp only [hm, hc]
  rfl

theorem run_of_skip (inp : Inputs) (env : Env) (w : World)
    (hm : env.mkdirSync (ARCHIVE_DIR inp) = true)
    (hc : checkUrlStatus env inp.url = .ok "404".toList) :
    run inp env w =
      { world := w, failed := false, probe := some (probeStatus env inp.url),
        retrieval := none } := by
  unfold run
  simp only [hm, hc]
  rfl

/-- The store a run records once the probe lets it continue. -/
theorem run_of_continue (inp : Inputs) (env : Env) (w : World)
    (hm : env.mkdirSync (ARCHIVE_DIR inp) = true) (s : Str)
    (hc : checkUrlStatus env inp.url = .ok s) (h4 : s ≠ "404".toList) :
    run inp env w =
      (let archivedPath :=
          archiveWebsite env inp.url (ARCHIVE_DIR inp) (limitRate inp) (userAgent inp)
       let metadata :=
          setProperty (loadArchiveMetadata w) inp.url (recordFor env.today archivedPath)
       { world := updateIndex inp (updateReadme inp (saveArchiveMetadata w metadata) metadata)
            metadata
         failed := false
         probe := some (probeStatus env inp.url)
         retrieval := some archivedPath }) := by
  unfold run
  simp only [hm, hc]
  rw [if_neg h4]
  rfl

/-- The probe was issued exactly when the storage directory could be ensured,
and what it obtained is what the run observed. -/
theorem run_probe (inp : Inputs) (env : Env) (w : World) :
    (run inp env w).probe =
      if env.mkdirSync (ARCHIVE_DIR inp) = true then some (probeStatus env inp.url)
      else none := by
  by_cases hm : env.mkdirSync (ARCHIVE_DIR inp) = true
  · rw [if_pos hm]
    cases hc : checkUrlStatus env inp.url with
    | error e => rw [run_of_fatal inp env w hm e hc]
    | ok s =>
      by_cases h4 : s = "404".toList
      · rw [h4] at hc
        rw [run_of_skip inp env w hm hc]
      · rw [run_of_continue inp env w hm s hc h4]
  · rw [if_neg hm]
    rw [run_of_mkdir_fails inp env w (by simpa using hm)]

theorem probe_seen (inp : Inputs) (env : Env) (w : World) (status : Option Str)
    (h : (run inp env w).probe = some status) :
    env.mkdirSync (ARCHIVE_DIR inp) = true ∧ probeStatus env inp.url = status := by
  rw [run_probe] at h
  by_cases hm : env.mkdirSync (ARCHIVE_DIR inp) = true
  · rw [if_pos hm] at h
    exact ⟨hm, Option.some.inj h⟩
  · rw [if_neg hm] at h
    cases h

/-- C4: when the probe status is exactly `404` the run reports success, invokes
no retrieval strategy, and leaves the metadata file and both indexes as they
were before the run. -/
theorem run_skips_on_404 (inp : Inputs) (env : Env) (w : World)
    (h : (run inp env w).probe = some (some "404".toList)) :
    (run inp env w).failed = false ∧ (run inp env w).world = w ∧
      (run inp env w).retrieval = none := by
  obtain ⟨hm, hp⟩ := probe_seen inp env w _ h
  have hc : checkUrlStatus env inp.url = .ok "404".toList := by
    unfold checkUrlStatus
    rw [hp]
    rfl
  rw [run_of_skip inp env w hm hc]
  exact ⟨rfl, rfl, rfl⟩

/-- C5: when the probe obtains no status (absent or empty) or a status code in
500-599, the run signals failure, invokes no retrieval strategy, and leaves
the metadata file and both indexes as they were; the conclusion is the same in
the two cases. -/
theorem run_aborts_on_fatal_probe (inp : Inputs) (env : Env) (w : World)
    (h : (run inp env w).probe = some none ∨ (run inp env w).probe = some (some []) ∨
      ∃ s n, (run inp env w).probe = some (some s) ∧ httpStatusCode? s = some n ∧
        500 ≤ n ∧ n ≤ 599) :
    (run inp env w).failed = true ∧ (run inp env w).retrieval = none ∧
      (run inp env w).world = w := by
  have key : env.mkdirSync (ARCHIVE_DIR inp) = true ∧
      ∃ e, checkUrlStatus env inp.url = .error e := by
    refine And.imp_right (isFatal_iff _).1 ?_
    rcases h with h | h | ⟨s, n, h, hn, hr⟩
    · obtain ⟨hm, hp⟩ := probe_seen inp env w _ h
      exact ⟨hm, (classifyStatus_fatal_iff _ _).2 (Or.inl hp)⟩
    · obtain ⟨hm, hp⟩ := probe_seen inp env w _ h
      exact ⟨hm, (classifyStatus_fatal_iff _ _).2 (Or.inr (Or.inl hp))⟩
    · obtain ⟨hm, hp⟩ := probe_seen inp env w _ h
      exact ⟨hm, (classifyStatus_fatal_iff _ _).2
        (Or.inr (Or.inr ⟨s, hp, (head_five_iff_code hn).2 hr⟩))⟩
  obtain ⟨hm, e, he⟩ := key
  rw [run_of_fatal inp env w hm e he]
  exact ⟨rfl, rfl, rfl⟩

/-- C4 on a run whose probe prints `404`, over a store that already holds a
record and two existing indexes. -/
theorem run_skips_on_404_witness :
    (run (inputsFor "https://example.com/gone".toList) (envPrinting "404\n".toList)
        priorWorld).failed = false ∧
    (run (inputsFor "https://example.com/gone".toList) (envPrinting "404\n".toList)
        priorWorld).world = priorWorld ∧
    (run (inputsFor "https://example.com/gone".toList) (envPrinting "404\n".toList)
        priorWorld).retrieval = none :=
  run_skips_on_404 _ _ _ (by decide)

/-- C5 on a run whose probe prints `503`. -/
theorem run_aborts_on_fatal_probe_witness :
    (run (inputsFor "https://example.com".toList) (envPrinting "503\n".toList)
        priorWorld).failed = true ∧
    (run (inputsFor "https://example.com".toList) (envPrinting "503\n".toList)
        priorWorld).retrieval = none ∧
    (run (inputsFor "https://example.com".toList) (envPrinting "503\n".toList)
        priorWorld).world = priorWorld :=
  run_aborts_on_fatal_probe _ _ _
    (Or.inr (Or.inr ⟨"503".toList, 503, by decide, by decide, by decide, by decide⟩))

/-! ## The metadata store -/

theorem getOwn_nil (k : Str) : getOwn [] k = none := rfl

theorem getOwn_cons (e : Str × ArchiveRecord) (M : Metadata) (k : Str) :
    getOwn (e :: M) k = if e.1 = k then some e.2 else getOwn M k := by
  unfold getOwn
  by_cases h : e.1 = k
  · simp [List.find?_cons, h]
  · simp [List.find?_cons, h]

theorem getOwn_append (A B : Metadata) (k : Str) :
    getOwn (A ++ B) k = (getOwn A k).or (getOwn B k) := by
  induction A with
  | nil => simp [getOwn_nil]
  | cons e A ih =>
    rw [List.cons_append, getOwn_cons, getOwn_cons, ih]
    by_cases h : e.1 = k
    · simp [h]
    · simp [h]

theorem getOwn_eq_none_of_not_any (M : Metadata) (k : Str)
    (h : M.any (fun e => decide (e.1 = k)) = false) : getOwn M k = none := by
  induction M with
  | nil => rfl
  | cons e M ih =>
    simp only [List.any_cons, Bool.or_eq_false_iff, decide_eq_false_iff_not] at h
    rw [getOwn_cons, if_neg h.1, ih h.2]

theorem entriesFor_eq_nil_of_not_any (M : Metadata) (k : Str)
    (h : M.any (fun e => decide (e.1 = k)) = false) : entriesFor M k = [] := by
  induction M with
  | nil => rfl
  | cons e M ih =>
    simp only [List.any_cons, Bool.or_eq_false_iff, decide_eq_false_iff_not] at h
    unfold entriesFor at ih ⊢
    rw [List.filter_cons_of_neg (by simpa using h.1)]
    exact ih h.2

/-- Inserting a fresh key anywhere in the entry list binds it and disturbs no
other key. -/
theorem getOwn_insert (A B : Metadata) (u : Str) (r : ArchiveRecord) (k : Str)
    (hfresh : (A ++ B).any (fun e => decide (e.1 = u)) = false) :
    getOwn (A ++ (u, r) :: B) k = if k = u then some r else getOwn (A ++ B) k := by
  have hA : A.any (fun e => decide (e.1 = u)) = false := by
    rw [List.any_append, Bool.or_eq_false_iff] at hfresh
    exact hfresh.1
  rw [getOwn_append, getOwn_cons, getOwn_append]
  by_cases hk : k = u
  · subst hk
    rw [getOwn_eq_none_of_not_any A k hA]
    simp
  · have hk' : ¬ (u, r).1 = k := fun h => hk h.symm
    rw [if_neg hk', if_neg hk]

theorem entriesFor_insert (A B : Metadata) (u : Str) (r : ArchiveRecord)
    (hfresh : (A ++ B).any (fun e => decide (e.1 = u)) = false) :
    entriesFor (A ++ (u, r) :: B) u = [(u, r)] := by
  rw [List.any_append, Bool.or_eq_false_iff] at hfresh
  have hA := entriesFor_eq_nil_of_not_any A u hfresh.1
  have hB := entriesFor_eq_nil_of_not_any B u hfresh.2
  unfold entriesFor at hA hB ⊢
  rw [List.filter_append, hA, List.nil_append, List.filter_cons_of_pos (by simp), hB]

theorem replace_of_not_any (M : Metadata) (u : Str) (r : ArchiveRecord)
    (h : M.any (fun e => decide (e.1 = u)) = false) :
    M.map (fun e => if e.1 = u then (u, r) else e) = M := by
  induction M with
  | nil => rfl
  | cons e M ih =>
    simp only [List.any_cons, Bool.or_eq_false_iff, decide_eq_false_iff_not] at h
    rw [List.map_cons, if_neg h.1, ih h.2]

theorem getOwn_replace (M : Metadata) (u : Str) (r : ArchiveRecord) (k : Str) :
    getOwn (M.map (fun e => if e.1 = u then (u, r) else e)) k =
      if k = u then (if M.any (fun e => decide (e.1 = u)) = true then some r else none)
      else getOwn M k := by
  induction M with
  | nil =>
    by_cases hk : k = u
    · rw [if_pos hk]
      rfl
    · rw [if_neg hk]
      rfl
  | cons e M ih =>
    rw [List.map_cons, getOwn_cons, getOwn_cons, ih]
    by_cases he : e.1 = u
    · rw [if_pos he]
      have hany : (e :: M).any (fun e => decide (e.1 = u)) = true := by
        rw [List.any_cons, decide_eq_true he, Bool.true_or]
      by_cases hk : k = u
      · rw [if_pos hk.symm, if_pos hk, if_pos hany]
      · have h1 : ¬ (u, r).1 = k := fun h => hk h.symm
        have h2 : ¬ e.1 = k := fun h => hk (h ▸ he)
        rw [if_neg h1, if_neg hk, if_neg hk, if_neg h2]
    · rw [if_neg he]
      have hany : (e :: M).any (fun e => decide (e.1 = u)) =
          M.any (fun e => decide (e.1 = u)) := by
        rw [List.any_cons, decide_eq_false he, Bool.false_or]
      by_cases hk : k = u
      · have h2 : ¬ e.1 = k := fun h => he (h.trans hk)
        rw [if_neg h2, if_pos hk, if_pos hk, hany]
      · rw [if_neg hk, if_neg hk]

theorem entriesFor_replace (M : Metadata) (u : Str) (r : ArchiveRecord)
    (hnd : (M.map Prod.fst).Nodup) (hown : M.any (fun e => decide (e.1 = u)) = true) :
    entriesFor (M.map (fun e => if e.1 = u then (u, r) else e)) u = [(u, r)] := by
  induction M with
  | nil => simp at hown
  | cons e M ih =>
    rw [List.map_cons, List.nodup_cons] at hnd
    by_cases he : e.1 = u
    · have hrest : M.any (fun e => decide (e.1 = u)) = false := by
        rw [Bool.eq_false_iff]
        intro hc
        rw [List.any_eq_true] at hc
        obtain ⟨x, hx, hxu⟩ := hc
        apply hnd.1
        rw [he, ← of_decide_eq_true hxu]
        exact List.mem_map_of_mem Prod.fst hx
      rw [List.map_cons, replace_of_not_any M u r hrest, if_pos he]
      have hnil := entriesFor_eq_nil_of_not_any M u hrest
      unfold entriesFor at hnil ⊢
      rw [List.filter_cons_of_pos (by simp), hnil]
    · have hrest : M.any (fun e => decide (e.1 = u)) = true := by
        rw [List.any_cons, decide_eq_false he, Bool.false_or] at hown
        exact hown
      have hih := ih hnd.2 hrest
      unfold entriesFor at hih ⊢
      rw [List.map_cons, if_neg he, List.filter_cons_of_neg (by simpa using he)]
      exact hih

/-- The assignment as two cases: an own key is replaced in place, and a fresh
key other than `__proto__` is inserted at one position of the entry list. -/
theorem setProperty_cases (M : Metadata) (u : Str) (r : ArchiveRecord)
    (hkey : u ≠ "__proto__".toList ∨ M.any (fun e => decide (e.1 = u)) = true) :
    (M.any (fun e => decide (e.1 = u)) = true ∧
      setProperty M u r = M.map (fun e => if e.1 = u then (u, r) else e)) ∨
    (M.any (fun e => decide (e.1 = u)) = false ∧
      ∃ A B, A ++ B = M ∧ setProperty M u r = A ++ (u, r) :: B) := by
  by_cases hown : M.any (fun e => decide (e.1 = u)) = true
  · left
    refine ⟨hown, ?_⟩
    unfold setProperty
    rw [if_pos hown]
  · right
    have hp : u ≠ "__proto__".toList := by
      rcases hkey with h | h
      · exact h
      · exact absurd h hown
    refine ⟨Bool.eq_false_iff.2 hown, ?_⟩
    unfold setProperty
    rw [if_neg hown, if_neg hp]
    cases hi : arrayIndex? u with
    | none => exact ⟨M, [], List.append_nil M, rfl⟩
    | some i => exact ⟨_, _, List.takeWhile_append_dropWhile _ M, rfl⟩

/-- The store after `metadata[u] = r`, for a key that becomes or is an own
property: `u` is bound to `r` by exactly one entry and every other key keeps
its record. -/
theorem setProperty_upsert (M : Metadata) (u : Str) (r : ArchiveRecord)
    (hnd : (M.map Prod.fst).Nodup)
    (hkey : u ≠ "__proto__".toList ∨ M.any (fun e => decide (e.1 = u)) = true) :
    getOwn (setProperty M u r) u = some r ∧
    entriesFor (setProperty M u r) u = [(u, r)] ∧
    ∀ k, k ≠ u → getOwn (setProperty M u r) k = getOwn M k := by
  rcases setProperty_cases M u r hkey with ⟨hown, heq⟩ | ⟨hfresh, A, B, hAB, heq⟩
  · rw [heq]
    refine ⟨?_, entriesFor_replace M u r hnd hown, ?_⟩
    · rw [getOwn_replace, if_pos rfl, if_pos hown]
    · intro k hk
      rw [getOwn_replace, if_neg hk]
  · rw [heq]
    rw [← hAB] at hfresh
    refine ⟨?_, entriesFor_insert A B u r hfresh, ?_⟩
    · rw [getOwn_insert A B u r u hfresh, if_pos rfl]
    · intro k hk
      rw [getOwn_insert A B u r k hfresh, if_neg hk, hAB]

/-- On an object without an own `__proto__` property the assignment
`metadata["__proto__"] = r` leaves the entries as they are. -/
theorem setProperty_proto (M : Metadata) (r : ArchiveRecord)
    (hfresh : M.any (fun e => decide (e.1 = "__proto__".toList)) = false) :
    setProperty M "__proto__".toList r = M := by
  unfold setProperty
  rw [if_neg (by rw [hfresh]; decide), if_pos rfl]

/-- The store recorded by a run that continues past the probe: the input URL,
exactly as given, is bound to today's date and the retrieved path after a
successful retrieval and to the failure marker and `null` after a failed one,
by exactly one entry, and every other key keeps its record.  The key
`__proto__` is excluded unless the store already holds it. -/
theorem run_records_outcome (inp : Inputs) (env : Env) (w : World) (s : Str)
    (hprobe : (run inp env w).probe = some (some s))
    (h0 : s ≠ []) (h4 : s ≠ "404".toList) (h5 : s.head? ≠ some '5')
    (hnd : ((loadArchiveMetadata w).map Prod.fst).Nodup)
    (hkey : inp.url ≠ "__proto__".toList ∨
      (loadArchiveMetadata w).any (fun e => decide (e.1 = inp.url)) = true) :
    ∃ M, (run inp env w).world.metadataFile = .json M ∧
      (run inp env w).failed = false ∧
      getOwn M inp.url =
        some (recordFor env.today
          (archiveWebsite env inp.url (ARCHIVE_DIR inp) (limitRate inp) (userAgent inp))) ∧
      (entriesFor M inp.url).length = 1 ∧
      ∀ k, k ≠ inp.url → getOwn M k = getOwn (loadArchiveMetadata w) k := by
  obtain ⟨hm, hp⟩ := probe_seen inp env w _ hprobe
  have hc : checkUrlStatus env inp.url = .ok s := by
    unfold checkUrlStatus
    rw [hp]
    exact classifyStatus_continue inp.url s h0 h4 h5
  rw [run_of_continue inp env w hm s hc h4]
  obtain ⟨h1, h2, h3⟩ := setProperty_upsert (loadArchiveMetadata w) inp.url
    (recordFor env.today
      (archiveWebsite env inp.url (ARCHIVE_DIR inp) (limitRate inp) (userAgent inp))) hnd hkey
  refine ⟨_, rfl, rfl, h1, ?_, h3⟩
  rw [h2]
  rfl

theorem recordFor_success (d p : Str) (hp : p ≠ []) :
    recordFor d (some p) = { lastArchived := d, archivedPath := .path p } := by
  unfold recordFor
  simp only [hp, ne_eq, not_false_eq_true, if_true]

theorem recordFor_failure (d : Str) :
    recordFor d none = { lastArchived := "FAILED".toList, archivedPath := .null } := rfl

/-- C3 at the input URL `__proto__`: the probe prints `403`, so the run
continues; the mirror command succeeds and `new URL("__proto__")` throws, so
the retrieval fails; the run reports success, yet the recorded store holds no
entry for the input URL: it is the prior store. -/
theorem run_drops_proto_record :
    (run (inputsFor "__proto__".toList) (envPrinting "403\n".toList) priorWorld).probe =
      some (some "403".toList) ∧
    (run (inputsFor "__proto__".toList) (envPrinting "403\n".toList) priorWorld).retrieval =
      some none ∧
    (run (inputsFor "__proto__".toList) (envPrinting "403\n".toList) priorWorld).failed =
      false ∧
    (run (inputsFor "__proto__".toList) (envPrinting "403\n".toList)
      priorWorld).world.metadataFile = priorWorld.metadataFile ∧
    getOwn (loadArchiveMetadata
      (run (inputsFor "__proto__".toList) (envPrinting "403\n".toList) priorWorld).world)
      "__proto__".toList = none := by
  refine ⟨by decide, by decide, by decide, by decide, by decide⟩

/-! ## Strategy selection -/

/-- C6 at `r/testsub`: the single-page fetch is handed the raw input, not the
classified URL.  For every environment `archiveWebsite` is `archiveWithCurl`
on `r/testsub`, whose command fetches `r/testsub`; where only the fetch of
`https://old.reddit.com/r/testsub/wiki` can succeed, `archiveWebsite` fails
while `archiveWithCurl` on the classified URL yields
`archive/reddit/testsub.html`. -/
theorem archiveWebsite_fetches_raw_input :
    (normalizeUrl "r/testsub".toList).url = "https://old.reddit.com/r/testsub/wiki".toList ∧
    (∀ env archiveDir limitRate userAgent,
      archiveWebsite env "r/testsub".toList archiveDir limitRate userAgent =
        archiveWithCurl env "r/testsub".toList archiveDir userAgent) ∧
    (∀ env userAgent,
      env.mkdirSync "archive/reddit".toList = true →
      archiveWithCurl env "r/testsub".toList "archive".toList userAgent =
        (env.execSync (curlCommand userAgent "archive/reddit/testsub.html".toList
          "r/testsub".toList)).map (fun _ => "archive/reddit/testsub.html".toList)) ∧
    archiveWebsite (envAccepting [wikiFetch]) "r/testsub".toList "archive".toList []
      "UA".toList = none ∧
    archiveWithCurl (envAccepting [wikiFetch]) (normalizeUrl "r/testsub".toList).url
      "archive".toList "UA".toList = some "archive/reddit/testsub.html".toList := by
  refine ⟨by decide, fun _ _ _ _ => rfl, ?_, by decide, by decide⟩
  intro env userAgent hm
  have hsub : matchSubreddit "r/testsub".toList = some "testsub".toList := by decide
  have hdir : pathJoin ["archive".toList, "reddit".toList] = "archive/reddit".toList := by
    decide
  have hout : pathJoin ["archive/reddit".toList, "testsub".toList ++ ".html".toList] =
      "archive/reddit/testsub.html".toList := by decide
  unfold archiveWithCurl
  simp only [hsub, hdir, hm, hout, if_true]
  cases env.execSync (curlCommand userAgent "archive/reddit/testsub.html".toList
    "r/testsub".toList) <;> rfl

/-! ## The index renderers -/

/-- C9, counterexample: a record whose path is the empty string is a string,
neither `null` nor missing, and both renderers link it to the placeholder
`#`, not to the stored path. -/
theorem tableRows_empty_path_counterexample :
    (∀ e ∈ emptyPathStore, e.2.archivedPath ≠ .null ∧ e.2.archivedPath ≠ .absent) ∧
    readmeTableRows emptyPathStore = "| [https://example.com](#) | 2024-05-01 |".toList ∧
    readmeTableRows emptyPathStore ≠
      ['\n'].intercalate (emptyPathStore.map (fun e =>
        "| [".toList ++ e.1 ++ "](".toList ++ linkTargetOfString e.2 ++ ") | ".toList ++
          statusText e.2 ++ " |".toList)) ∧
    indexTableRows emptyPathStore ≠
      ['\n'].intercalate (emptyPathStore.map (fun e =>
        "<tr><td><a href=\"".toList ++ linkTargetOfString e.2 ++ "\">".toList ++ e.1 ++
          "</a></td><td>".toList ++ statusText e.2 ++ "</td></tr>".toList)) := by
  refine ⟨by decide, by decide, by decide, by decide⟩

/-- C9, amended: each table body is one row per entry, in entry order, joined
by newlines.  The row shows the URL as the link text; it links to the stored
path when that is a non-empty string and to the placeholder `#` when the path
is `null`, missing or the empty string; its status is `lastArchived`
unchanged, except that the failure marker `FAILED` is shown as the cross mark
followed by ` FAILED`. -/
theorem tableRows_rows (M : Metadata) :
    readmeTableRows M = ['\n'].intercalate (M.map readmeRow) ∧
    indexTableRows M = ['\n'].intercalate (M.map indexRow) ∧
    (M.map readmeRow).length = M.length ∧ (M.map indexRow).length = M.length ∧
    ∀ url data, ∃ target status,
      readmeRow (url, data) =
        "| [".toList ++ url ++ "](".toList ++ target ++ ") | ".toList ++ status ++
          " |".toList ∧
      indexRow (url, data) =
        "<tr><td><a href=\"".toList ++ target ++ "\">".toList ++ url ++
          "</a></td><td>".toList ++ status ++ "</td></tr>".toList ∧
      (∀ p, data.archivedPath = .path p → p ≠ [] → target = p) ∧
      (data.archivedPath = .null ∨ data.archivedPath = .absent ∨
          data.archivedPath = .path [] → target = "#".toList) ∧
      (data.lastArchived = "FAILED".toList → status = crossMark ++ " FAILED".toList) ∧
      (data.lastArchived ≠ "FAILED".toList → status = data.lastArchived) := by
  refine ⟨rfl, rfl, List.length_map _ _, List.length_map _ _, ?_⟩
  intro url data
  refine ⟨linkTarget data, statusText data, rfl, rfl, ?_, ?_, ?_, ?_⟩
  · intro p hp hne
    unfold linkTarget
    rw [hp]
    exact if_pos hne
  · rintro (h | h | h)
    · unfold linkTarget
      rw [h]
    · unfold linkTarget
      rw [h]
    · unfold linkTarget
      rw [h]
      rfl
  · intro h
    unfold statusText
    rw [if_pos h]
  · intro h
    unfold statusText
    rw [if_neg h]

/-- C9 amended, on a store with a failed record and a successful one. -/
theorem tableRows_rows_witness :
    readmeTableRows
      [("r/testsub".toList, { lastArchived := "FAILED".toList, archivedPath := .null }),
       ("https://example.com".toList,
        { lastArchived := "2024-05-01".toList
          archivedPath := .path "archive/example.com/index.html".toList })] =
      ("| [r/testsub](#) | ".toList ++ crossMark ++ " FAILED |\n".toList ++
       "| [https://example.com](archive/example.com/index.html) | 2024-05-01 |".toList) :=
  (tableRows_rows _).1.trans (by decide)

set_option maxRecDepth 4000 in
/-- C10 at a store with one archived site: the data row of the README has two
cells under a header of three, and the data row of the HTML index has two
cells under a header of three, so the status stands in the second column. -/
theorem data_rows_have_two_cells :
    readmeTableRows oneSiteStore =
      "| [https://example.com](archive/example.com/index.html) | 2024-05-01 |".toList ∧
    markdownCells (readmeTableRows oneSiteStore) = 2 ∧
    markdownCells readmeHeaderRow = 3 ∧
    indexTableRows oneSiteStore =
      ("<tr><td><a href=\"archive/example.com/index.html\">https://example.com</a></td>" ++
       "<td>2024-05-01</td></tr>").toList ∧
    htmlCells (indexTableRows oneSiteStore) = 2 ∧
    htmlCells indexHeaderRow = 3 := by
  refine ⟨by decide, by decide, by decide, by decide, by decide, by decide⟩

/-! ## Strategy B: the mirrored path -/

theorem pathBasename_eq (p : Str) :
    pathBasename p =
      ((p.reverse.dropWhile (fun c => decide (c = '/'))).takeWhile
        (fun c => decide (c ≠ '/'))).reverse := rfl

theorem pathBasename_of_dotted_tail (q seg : Str) (hne : seg ≠ [])
    (hslash : '/' ∉ seg) (hdot : '.' ∈ seg) :
    pathBasename (q ++ seg) ≠ [] ∧ includesChar (pathBasename (q ++ seg)) '.' = true := by
  have hrev : ∀ a ∈ seg.reverse, (fun c => decide (c ≠ '/')) a = true := by
    intro a ha
    rw [List.mem_reverse] at ha
    simp only [ne_eq, decide_not, Bool.not_eq_true', decide_eq_false_iff_not]
    rintro rfl
    exact hslash ha
  obtain ⟨c, t, hct⟩ : ∃ c t, seg.reverse = c :: t := by
    cases hs : seg.reverse with
    | nil => exact absurd (List.reverse_eq_nil_iff.1 hs) hne
    | cons c t => exact ⟨c, t, rfl⟩
  have hc : c ≠ '/' := by
    have := hrev c (by rw [hct]; exact List.mem_cons_self c t)
    simpa using this
  have hbase : pathBasename (q ++ seg) =
      ((q.reverse).takeWhile (fun c => decide (c ≠ '/'))).reverse ++ seg := by
    rw [pathBasename_eq, List.reverse_append, hct, List.cons_append,
      List.dropWhile_cons_of_neg (by simpa using hc), ← List.cons_append, ← hct,
      List.takeWhile_append_of_pos hrev, List.reverse_append, List.reverse_reverse]
  rw [hbase]
  constructor
  · intro h
    exact hne (List.append_eq_nil.1 h).2
  · unfold includesChar
    rw [List.contains_iff_exists_mem_beq]
    exact ⟨'.', List.mem_append_right _ hdot, by decide⟩

theorem pathBasename_of_slashes (p : Str) (h : ∀ c ∈ p, c = '/') : pathBasename p = [] := by
  have hd : p.reverse.dropWhile (fun c => decide (c = '/')) = [] := by
    rw [List.dropWhile_eq_nil_iff]
    intro x hx
    rw [List.mem_reverse] at hx
    simpa using h x hx
  rw [pathBasename_eq, hd]
  rfl

theorem pathBasename_of_plain_segment (q seg : Str) (k : Nat) (hne : seg ≠ [])
    (hslash : '/' ∉ seg) (hq : q = [] ∨ q.getLast? = some '/') :
    pathBasename (q ++ seg ++ List.replicate k '/') = seg := by
  have hrev : ∀ a ∈ seg.reverse, (fun c => decide (c ≠ '/')) a = true := by
    intro a ha
    rw [List.mem_reverse] at ha
    simp only [ne_eq, decide_not, Bool.not_eq_true', decide_eq_false_iff_not]
    rintro rfl
    exact hslash ha
  obtain ⟨c, t, hct⟩ : ∃ c t, seg.reverse = c :: t := by
    cases hs : seg.reverse with
    | nil => exact absurd (List.reverse_eq_nil_iff.1 hs) hne
    | cons c t => exact ⟨c, t, rfl⟩
  have hc : c ≠ '/' := by
    have := hrev c (by rw [hct]; exact List.mem_cons_self c t)
    simpa using this
  have hrep : ∀ a ∈ List.replicate k '/', (fun c => decide (c = '/')) a = true := by
    intro a ha
    simpa using (List.mem_replicate.1 ha).2
  have hqr : (q.reverse).takeWhile (fun c => decide (c ≠ '/')) = [] := by
    rcases hq with rfl | hq
    · rfl
    · cases hr : q.reverse with
      | nil => rfl
      | cons x xs =>
        have hx : q.getLast? = some x := by
          rw [← List.head?_reverse, hr]
          rfl
        rw [hq] at hx
        have hx' : x = '/' := (Option.some.inj hx).symm
        subst hx'
        exact List.takeWhile_cons_of_neg (by decide)
  rw [pathBasename_eq, List.reverse_append, List.reverse_append, List.reverse_replicate,
    List.dropWhile_append_of_pos hrep, hct, List.cons_append,
    List.dropWhile_cons_of_neg (by simpa using hc), ← List.cons_append, ← hct,
    List.takeWhile_append_of_pos hrev, hqr, List.append_nil, List.reverse_reverse]

theorem wgetOutputPath_mirror (urlObj : UrlObj) (archiveDir : Str)
    (h : pathBasename urlObj.pathname ≠ [] ∧
      includesChar (pathBasename urlObj.pathname) '.' = true) :
    wgetOutputPath urlObj archiveDir =
      pathJoin [archiveDir, urlObj.hostname ++ urlObj.pathname] := by
  unfold wgetOutputPath
  exact if_pos h

theorem wgetOutputPath_index (urlObj : UrlObj) (archiveDir : Str)
    (h : ¬ (pathBasename urlObj.pathname ≠ [] ∧
      includesChar (pathBasename urlObj.pathname) '.' = true)) :
    wgetOutputPath urlObj archiveDir =
      pathJoin [archiveDir, urlObj.hostname, "index.html".toList] := by
  unfold wgetOutputPath
  exact if_neg h

/-- The mirror strategy as a whole: the computed path is returned exactly when
the mirror command, the `URL` constructor and the cleanup command all succeed. -/
theorem archiveWithWget_of_success (env : Env) (u archiveDir limitRate ua : Str)
    (urlObj : UrlObj) (hparse : env.parseUrl u = some urlObj)
    (hmirror : env.execSync (wgetCommand ua (rateLimitOption limitRate) archiveDir u) ≠ none)
    (hclean : env.execSync (findCommand archiveDir) ≠ none) :
    archiveWithWget env u archiveDir limitRate ua = some (wgetOutputPath urlObj archiveDir) := by
  unfold archiveWithWget
  cases hm : env.execSync (wgetCommand ua (rateLimitOption limitRate) archiveDir u) with
  | none => exact absurd hm hmirror
  | some o =>
    cases hc : env.execSync (findCommand archiveDir) with
    | none => exact absurd hc hclean
    | some o' => simp only [hparse, hc]

theorem archiveWithWget_of_cleanup_failure (env : Env) (u archiveDir limitRate ua : Str)
    (hclean : env.execSync (findCommand archiveDir) = none) :
    archiveWithWget env u archiveDir limitRate ua = none := by
  unfold archiveWithWget
  cases env.execSync (wgetCommand ua (rateLimitOption limitRate) archiveDir u) with
  | none => rfl
  | some o =>
    cases env.parseUrl u with
    | none => rfl
    | some urlObj => simp only [hclean]

/-- C7, counterexample: the mirror of `https://example.com` (host
`example.com`, path `/`) succeeds and the cleanup command fails, and the
result is `null`, not `archive/example.com/index.html`. -/
theorem archiveWithWget_cleanup_counterexample :
    (envMirroring [mirrorOf "https://example.com".toList]).parseUrl
        "https://example.com".toList =
      some { hostname := "example.com".toList, pathname := "/".toList } ∧
    (envMirroring [mirrorOf "https://example.com".toList]).execSync
        (wgetCommand "UA".toList (rateLimitOption []) "archive".toList
          "https://example.com".toList) ≠ none ∧
    archiveWithWget (envMirroring [mirrorOf "https://example.com".toList])
        "https://example.com".toList "archive".toList [] "UA".toList = none := by
  refine ⟨by decide, by decide, by decide⟩

/-- C7, amended: for a URL that parses to host `h` and path `p`, when the
mirror command and the cleanup command both succeed, `archiveWithWget` returns
`path.join(archiveDir, h + p)` if `p` ends in a non-empty segment that contains
a `.`, and `path.join(archiveDir, h, "index.html")` if `p` consists of slashes
only (the empty path and `/` included) or if its last non-empty segment
contains no `.`, whether or not slashes follow that segment. -/
theorem archiveWithWget_path (env : Env) (u archiveDir limitRate ua h p : Str)
    (hparse : env.parseUrl u = some { hostname := h, pathname := p })
    (hmirror : env.execSync (wgetCommand ua (rateLimitOption limitRate) archiveDir u) ≠ none)
    (hclean : env.execSync (findCommand archiveDir) ≠ none) :
    ((∃ q seg, p = q ++ seg ∧ seg ≠ [] ∧ '/' ∉ seg ∧ '.' ∈ seg) →
      archiveWithWget env u archiveDir limitRate ua = some (pathJoin [archiveDir, h ++ p])) ∧
    (((∀ c ∈ p, c = '/') ∨
        ∃ q seg k, p = q ++ seg ++ List.replicate k '/' ∧ seg ≠ [] ∧ '/' ∉ seg ∧
          '.' ∉ seg ∧ (q = [] ∨ q.getLast? = some '/')) →
      archiveWithWget env u archiveDir limitRate ua =
        some (pathJoin [archiveDir, h, "index.html".toList])) := by
  rw [archiveWithWget_of_success env u archiveDir limitRate ua _ hparse hmirror hclean]
  constructor
  · rintro ⟨q, seg, rfl, hne, hslash, hdot⟩
    rw [wgetOutputPath_mirror _ _ (pathBasename_of_dotted_tail q seg hne hslash hdot)]
  · rintro (hall | ⟨q, seg, k, rfl, hne, hslash, hdot, hq⟩)
    · rw [wgetOutputPath_index]
      rintro ⟨hb, -⟩
      exact hb (pathBasename_of_slashes p hall)
    · rw [wgetOutputPath_index]
      rintro ⟨-, hb⟩
      change includesChar (pathBasename (q ++ seg ++ List.replicate k '/')) '.' = true at hb
      rw [pathBasename_of_plain_segment q seg k hne hslash hq] at hb
      unfold includesChar at hb
      rw [List.contains_iff_exists_mem_beq] at hb
      obtain ⟨a, ha, hab⟩ := hb
      have : '.' = a := by simpa using hab
      exact hdot (this ▸ ha)

/-- C7 amended, on `https://example.com` (path `/`) and on
`https://example.com/docs/page.html`, mirrored into `archive`. -/
theorem archiveWithWget_path_witness :
    archiveWithWget
        (envMirroring [mirrorOf "https://example.com".toList, findCommand "archive".toList])
        "https://example.com".toList "archive".toList [] "UA".toList =
      some "archive/example.com/index.html".toList ∧
    archiveWithWget
        (envMirroring [mirrorOf "https://example.com/docs/page.html".toList,
          findCommand "archive".toList])
        "https://example.com/docs/page.html".toList "archive".toList [] "UA".toList =
      some "archive/example.com/docs/page.html".toList :=
  ⟨((archiveWithWget_path
        (envMirroring [mirrorOf "https://example.com".toList, findCommand "archive".toList])
        "https://example.com".toList "archive".toList [] "UA".toList
        "example.com".toList "/".toList (by decide) (by decide) (by decide)).2
      (Or.inl (by decide))).trans (by decide),
   ((archiveWithWget_path
        (envMirroring [mirrorOf "https://example.com/docs/page.html".toList,
          findCommand "archive".toList])
        "https://example.com/docs/page.html".toList "archive".toList [] "UA".toList
        "example.com".toList "/docs/page.html".toList (by decide) (by decide) (by decide)).1
      ⟨"/docs/".toList, "page.html".toList, by decide, by decide, by decide,
        by decide⟩).trans (by decide)⟩

/-- The path `/v1.0/` ends in a slash after a segment that contains a `.`:
`path.basename` ignores the trailing slash, and the computed path is the
directory `archive/example.com/v1.0/`, not an index document. -/
theorem wgetOutputPath_dotted_directory :
    wgetOutputPath { hostname := "example.com".toList, pathname := "/v1.0/".toList }
      "archive".toList = "archive/example.com/v1.0/".toList := by
  decide

/-! ## Strategy A: the subreddit pattern -/

theorem matchSubreddit_cons_r_slash (rest : Str) :
    matchSubreddit ('r' :: '/' :: rest) =
      if rest.takeWhile (fun x => decide (x ≠ '/')) ≠ [] then
        some (rest.takeWhile (fun x => decide (x ≠ '/')))
      else matchSubreddit ('/' :: rest) := by
  conv => lhs; unfold matchSubreddit
  simp only [if_true]

theorem matchSubreddit_cons_of_not_r (c : Char) (cs : Str) (h : c ≠ 'r') :
    matchSubreddit (c :: cs) = matchSubreddit cs := by
  conv => lhs; unfold matchSubreddit
  rw [if_neg h]

theorem matchSubreddit_cons_r_of_not_slash (cs : Str) (h : cs.head? ≠ some '/') :
    matchSubreddit ('r' :: cs) = matchSubreddit cs := by
  conv => lhs; unfold matchSubreddit
  rw [if_pos rfl]
  split
  · exact absurd rfl h
  · rfl

theorem takeWhile_ne_nil_iff_head (rest : Str) :
    rest.takeWhile (fun x => decide (x ≠ '/')) ≠ [] ↔ ∃ c post, c ≠ '/' ∧ rest = c :: post := by
  cases rest with
  | nil => simp
  | cons c post =>
    by_cases hc : c = '/'
    · subst hc
      simp
    · simp [hc]

/-- At the head of the string the pattern either matches, and the group is the
run of non-slash code units after `r/`, or the search moves one place on. -/
theorem matchSubreddit_cons (c : Char) (cs : Str) :
    (SubredditAt (c :: cs) [] ∧
      ∃ rest, c = 'r' ∧ cs = '/' :: rest ∧
        matchSubreddit (c :: cs) = some (rest.takeWhile (fun x => decide (x ≠ '/')))) ∨
    (¬ SubredditAt (c :: cs) [] ∧ matchSubreddit (c :: cs) = matchSubreddit cs) := by
  by_cases hr : c = 'r'
  · subst hr
    by_cases hs : cs.head? = some '/'
    · obtain ⟨rest, rfl⟩ : ∃ rest, cs = '/' :: rest := by
        cases cs with
        | nil => simp at hs
        | cons d ds =>
          simp only [List.head?_cons, Option.some.injEq] at hs
          exact ⟨ds, by rw [hs]⟩
      by_cases ht : rest.takeWhile (fun x => decide (x ≠ '/')) ≠ []
      · left
        obtain ⟨d, post, hd, rfl⟩ := (takeWhile_ne_nil_iff_head rest).1 ht
        refine ⟨⟨d, post, hd, rfl⟩, d :: post, rfl, rfl, ?_⟩
        rw [matchSubreddit_cons_r_slash, if_pos ht]
      · right
        constructor
        · rintro ⟨d, post, hd, heq⟩
          apply ht
          rw [takeWhile_ne_nil_iff_head]
          refine ⟨d, post, hd, ?_⟩
          simpa using heq
        · rw [matchSubreddit_cons_r_slash, if_neg ht]
    · right
      constructor
      · rintro ⟨d, post, hd, heq⟩
        apply hs
        have := (List.cons.inj heq).2
        rw [this]
        rfl
      · exact matchSubreddit_cons_r_of_not_slash cs hs
  · right
    constructor
    · rintro ⟨d, post, hd, heq⟩
      exact hr (List.cons.inj heq).1
    · exact matchSubreddit_cons_of_not_r c cs hr

theorem subredditAt_cons (c : Char) (cs pre : Str) :
    SubredditAt (c :: cs) (c :: pre) ↔ SubredditAt cs pre := by
  unfold SubredditAt
  constructor
  · rintro ⟨d, post, hd, heq⟩
    exact ⟨d, post, hd, (List.cons.inj heq).2⟩
  · rintro ⟨d, post, hd, heq⟩
    exact ⟨d, post, hd, by rw [heq]; rfl⟩

/-- The pattern fails exactly on the strings that hold no occurrence. -/
theorem matchSubreddit_eq_none_iff (u : Str) :
    matchSubreddit u = none ↔ ¬ ∃ pre, SubredditAt u pre := by
  induction u with
  | nil =>
    constructor
    · rintro - ⟨pre, d, post, -, heq⟩
      have hlen := congrArg List.length heq
      simp only [List.length_nil, List.length_append, List.length_cons] at hlen
      omega
    · intro _
      rfl
  | cons c cs ih =>
    rcases matchSubreddit_cons c cs with ⟨hat, rest, -, -, hm⟩ | ⟨hnot, hm⟩
    · rw [hm]
      constructor
      · intro h
        cases h
      · intro h
        exact absurd ⟨[], hat⟩ h
    · rw [hm, ih]
      constructor
      · rintro h ⟨pre, hpre⟩
        cases pre with
        | nil => exact hnot hpre
        | cons p pre' =>
          obtain ⟨d, post, hd, heq⟩ := hpre
          have hp : c = p := (List.cons.inj heq).1
          subst hp
          exact h ⟨pre', (subredditAt_cons c cs pre').1 ⟨d, post, hd, heq⟩⟩
      · rintro h ⟨pre, hpre⟩
        exact h ⟨c :: pre, (subredditAt_cons c cs pre).2 hpre⟩

/-- The group captured at the leftmost occurrence is the maximal run of
non-slash code units that follows `r/` there. -/
theorem matchSubreddit_of_leftmost (u pre name post : Str)
    (hu : u = pre ++ "r/".toList ++ name ++ post) (hne : name ≠ [])
    (hslash : '/' ∉ name) (hpost : post = [] ∨ post.head? = some '/')
    (hleft : ∀ pre', SubredditAt u pre' → pre.length ≤ pre'.length) :
    matchSubreddit u = some name := by
  induction pre generalizing u with
  | nil =>
    subst hu
    have hrun : (name ++ post).takeWhile (fun x => decide (x ≠ '/')) = name := by
      have hall : ∀ a ∈ name, (fun x => decide (x ≠ '/')) a = true := by
        intro a ha
        simp only [ne_eq, decide_not, Bool.not_eq_true', decide_eq_false_iff_not]
        rintro rfl
        exact hslash ha
      rw [List.takeWhile_append_of_pos hall]
      rcases hpost with rfl | hp
      · simp
      · cases post with
        | nil => simp
        | cons x xs =>
          simp only [List.head?_cons, Option.some.injEq] at hp
          subst hp
          rw [List.takeWhile_cons_of_neg (by decide), List.append_nil]
    show matchSubreddit ('r' :: '/' :: (name ++ post)) = some name
    rw [matchSubreddit_cons_r_slash, hrun, if_pos hne]
  | cons p pre' ih =>
    subst hu
    rcases matchSubreddit_cons p (pre' ++ "r/".toList ++ name ++ post) with
      ⟨hat, -⟩ | ⟨-, hm⟩
    · have := hleft [] hat
      simp at this
    · show matchSubreddit (p :: (pre' ++ "r/".toList ++ name ++ post)) = some name
      rw [hm]
      apply ih _ rfl
      intro q hq
      have := hleft (p :: q) ((subredditAt_cons p _ q).2 hq)
      simpa using this

/-! ## Node's `path.join` on plain segments -/

theorem intercalate_nil (sep : Str) : sep.intercalate ([] : List Str) = [] := rfl

theorem intercalate_singleton (sep s : Str) : sep.intercalate [s] = s := by
  simp [List.intercalate]

theorem intercalate_cons_cons (sep s t : Str) (ts : List Str) :
    sep.intercalate (s :: t :: ts) = s ++ sep ++ sep.intercalate (t :: ts) := by
  simp [List.intercalate]

theorem intercalate_append_singleton (sep : Str) (T : List Str) (g : Str) (hT : T ≠ []) :
    sep.intercalate (T ++ [g]) = sep.intercalate T ++ sep ++ g := by
  induction T with
  | nil => exact absurd rfl hT
  | cons s T ih =>
    cases T with
    | nil =>
      rw [List.cons_append, List.nil_append, intercalate_cons_cons, intercalate_singleton,
        intercalate_singleton]
    | cons t ts =>
      rw [List.cons_append, List.cons_append, intercalate_cons_cons, ← List.cons_append,
        ih (by simp), intercalate_cons_cons]
      simp only [List.append_assoc]

theorem intercalate_head (T : List Str) (s : Str) (c : Char) (cs : Str) (hs : s = c :: cs) :
    (['/'].intercalate (s :: T)).head? = some c := by
  subst hs
  cases T with
  | nil => rw [intercalate_singleton]; rfl
  | cons t ts => rw [intercalate_cons_cons]; rfl

theorem splitOn_segments_free (x : Char) (l : Str) :
    ∀ seg ∈ l.splitOn x, x ∉ seg := by
  induction l with
  | nil =>
    intro seg hseg
    rw [List.splitOn_nil] at hseg
    rw [List.mem_singleton] at hseg
    subst hseg
    exact List.not_mem_nil x
  | cons c cs ih =>
    intro seg hseg
    unfold List.splitOn at hseg ih
    rw [List.splitOnP_cons] at hseg
    by_cases hc : (c == x) = true
    · rw [if_pos hc] at hseg
      rcases List.mem_cons.1 hseg with h | h
      · subst h
        exact List.not_mem_nil x
      · exact ih seg h
    · rw [if_neg hc] at hseg
      cases hsp : List.splitOnP (fun y => y == x) cs with
      | nil => exact absurd hsp (List.splitOnP_ne_nil _ _)
      | cons s ss =>
        rw [hsp] at hseg ih
        simp only [List.modifyHead_cons] at hseg
        rcases List.mem_cons.1 hseg with h | h
        · subst h
          intro hx
          rcases List.mem_cons.1 hx with h' | h'
          · apply hc
            rw [h']
            exact beq_self_eq_true c
          · exact ih s (List.mem_cons_self s ss) h'
        · exact ih seg (List.mem_cons_of_mem s h)

theorem splitOn_append_sep (x : Char) (xs ys : Str) :
    (xs ++ x :: ys).splitOn x = xs.splitOn x ++ ys.splitOn x := by
  unfold List.splitOn
  induction xs with
  | nil =>
    rw [List.nil_append, List.splitOnP_cons, if_pos (beq_self_eq_true x), List.splitOnP_nil]
    rfl
  | cons c cs ih =>
    rw [List.cons_append, List.splitOnP_cons, List.splitOnP_cons, ih]
    by_cases hc : (c == x) = true
    · rw [if_pos hc, if_pos hc]
      rfl
    · rw [if_neg hc, if_neg hc]
      cases hsp : List.splitOnP (fun y => y == x) cs with
      | nil => exact absurd hsp (List.splitOnP_ne_nil _ _)
      | cons s ss => rfl

theorem splitOn_of_free (x : Char) (g : Str) (h : x ∉ g) : g.splitOn x = [g] := by
  unfold List.splitOn
  apply List.splitOnP_eq_single
  intro c hc hcx
  have : c = x := by simpa using hcx
  exact h (this ▸ hc)

theorem normalSegs_nil (a : Bool) : NormalSegs a [] := by
  constructor
  · intro s hs
    exact absurd hs (List.not_mem_nil s)
  · intro R T h
    have hlen := congrArg List.length h
    simp only [List.length_nil, List.length_append, List.length_cons] at hlen
    omega

theorem normalSegs_of_concat (a : Bool) (S : List Str) (x : Str)
    (h : NormalSegs a (S ++ [x])) : NormalSegs a S := by
  constructor
  · intro s hs
    exact h.1 s (List.mem_append_left _ hs)
  · intro R T hS
    apply h.2 R (T ++ [x])
    rw [hS]
    simp only [List.append_assoc, List.cons_append]

theorem normalSegs_concat_plain (a : Bool) (S : List Str) (g : Str)
    (h : NormalSegs a S) (hg : PlainSegment g) : NormalSegs a (S ++ [g]) := by
  obtain ⟨hg0, hg1, hg2, hg3⟩ := hg
  constructor
  · intro s hs
    rcases List.mem_append.1 hs with hs | hs
    · exact h.1 s hs
    · rw [List.mem_singleton] at hs
      subst hs
      exact ⟨hg0, hg1, hg3⟩
  · intro R T hS
    rcases List.eq_nil_or_concat T with rfl | ⟨L, b, rfl⟩
    · have := List.append_inj' hS rfl
      exact absurd (List.cons.inj this.2).1 hg2
    · have hS' : S ++ [g] = (R ++ "..".toList :: L) ++ [b] := by
        rw [hS]
        simp only [List.append_assoc, List.cons_append, List.concat_eq_append]
      exact h.2 R L (List.append_inj' hS' rfl).1

theorem normalSegs_concat_dotdot (S : List Str)
    (h : NormalSegs true S) (hall : ∀ r ∈ S, r = "..".toList) :
    NormalSegs true (S ++ ["..".toList]) := by
  constructor
  · intro s hs
    rcases List.mem_append.1 hs with hs | hs
    · exact h.1 s hs
    · rw [List.mem_singleton] at hs
      subst hs
      decide
  · intro R T hS
    refine ⟨rfl, ?_⟩
    intro r hr
    have hmem : r ∈ S ++ ["..".toList] := by
      rw [hS]
      exact List.mem_append_left _ hr
    rcases List.mem_append.1 hmem with hm | hm
    · exact hall r hm
    · exact List.mem_singleton.1 hm

theorem all_dotdot_of_last (a : Bool) (S : List Str) (h : NormalSegs a S)
    (hlast : S.getLast? = some "..".toList) : a = true ∧ ∀ r ∈ S, r = "..".toList := by
  have hS := List.dropLast_append_getLast? _ hlast
  obtain ⟨ha, hall⟩ := h.2 S.dropLast [] hS.symm
  refine ⟨ha, ?_⟩
  intro r hr
  rw [← hS] at hr
  rcases List.mem_append.1 hr with hm | hm
  · exact hall r hm
  · exact List.mem_singleton.1 hm

/-- One step of `normalizeString` keeps the segment list in normal form. -/
theorem normalSegs_step (a : Bool) (R : List Str) (seg : Str)
    (h : NormalSegs a R) (hseg : '/' ∉ seg) : NormalSegs a (normalizeStep a R seg) := by
  unfold normalizeStep
  by_cases h1 : seg = [] ∨ seg = ".".toList
  · rw [if_pos h1]
    exact h
  · rw [if_neg h1]
    by_cases h2 : seg = "..".toList
    · rw [if_pos h2]
      cases hl : R.getLast? with
      | none =>
        have hR : R = [] := List.getLast?_eq_none_iff.1 hl
        cases a with
        | true =>
          have := normalSegs_concat_dotdot [] (normalSegs_nil true)
            (fun r hr => absurd hr (List.not_mem_nil r))
          simpa using this
        | false => exact normalSegs_nil false
      | some last =>
        by_cases h3 : last = "..".toList
        · simp only [h3, if_true]
          rw [h3] at hl
          obtain ⟨ha, hall⟩ := all_dotdot_of_last a R h hl
          subst ha
          simp only [if_true]
          exact normalSegs_concat_dotdot R h hall
        · simp only [h3, if_false]
          have hS := List.dropLast_append_getLast? _ hl
          rw [← hS] at h
          exact normalSegs_of_concat a _ _ h
    · rw [if_neg h2]
      apply normalSegs_concat_plain a R seg h
      exact ⟨fun e => h1 (Or.inl e), fun e => h1 (Or.inr e), h2, hseg⟩

theorem normalSegs_foldl (a : Bool) (segs : List Str) (R : List Str)
    (h : NormalSegs a R) (hsegs : ∀ s ∈ segs, '/' ∉ s) :
    NormalSegs a (segs.foldl (normalizeStep a) R) := by
  induction segs generalizing R with
  | nil => exact h
  | cons s segs ih =>
    rw [List.foldl_cons]
    apply ih
    · exact normalSegs_step a R s h (hsegs s (List.mem_cons_self s segs))
    · intro t ht
      exact hsegs t (List.mem_cons_of_mem s ht)

theorem normalizeStep_plain (a : Bool) (R : List Str) (g : Str) (hg : PlainSegment g) :
    normalizeStep a R g = R ++ [g] := by
  obtain ⟨hg0, hg1, hg2, -⟩ := hg
  unfold normalizeStep
  rw [if_neg (by rintro (e | e); exact hg0 e; exact hg1 e), if_neg hg2]

/-- Folding `normalizeString` over segments that are already in normal form
changes nothing. -/
theorem foldl_normalizeStep_normal (a : Bool) (S R : List Str)
    (h : NormalSegs a (R ++ S)) : S.foldl (normalizeStep a) R = R ++ S := by
  induction S generalizing R with
  | nil => simp
  | cons s S ih =>
    rw [List.foldl_cons]
    have hstep : normalizeStep a R s = R ++ [s] := by
      obtain ⟨hs0, hs1, hs3⟩ := h.1 s (List.mem_append_right _ (List.mem_cons_self s S))
      by_cases h2 : s = "..".toList
      · subst h2
        obtain ⟨ha, hall⟩ := h.2 R S rfl
        subst ha
        unfold normalizeStep
        rw [if_neg (by decide), if_pos rfl]
        cases hl : R.getLast? with
        | none =>
          have hR : R = [] := List.getLast?_eq_none_iff.1 hl
          subst hR
          rfl
        | some last =>
          have hmem : last ∈ R := List.mem_of_getLast?_eq_some hl
          have := hall last hmem
          subst this
          simp only [if_true]
      · exact normalizeStep_plain a R s ⟨hs0, hs1, h2, hs3⟩
    rw [hstep]
    have h' : NormalSegs a ((R ++ [s]) ++ S) := by
      simpa only [List.append_assoc, List.singleton_append] using h
    rw [ih (R ++ [s]) h']
    simp only [List.append_assoc, List.singleton_append]

theorem pathNormalize_of_body (J : Str) (abs : Bool) (body : Str) (hJ : J ≠ [])
    (habs : J.head? = some '/' ↔ abs = true) (hlast : J.getLast? ≠ some '/')
    (hbody : normalizeString J (!abs) = body) (hne : body ≠ []) :
    pathNormalize J = (if abs = true then ['/'] else []) ++ body := by
  have hd : decide (J.head? = some '/') = abs := by
    cases abs with
    | true => exact decide_eq_true (habs.2 rfl)
    | false => exact decide_eq_false (fun h => Bool.false_ne_true (habs.1 h))
  unfold pathNormalize
  rw [if_neg hJ]
  simp only [hd, hbody, if_neg hne, if_neg hlast]
  cases abs with
  | true =>
    rw [if_pos (habs.2 rfl)]
    rfl
  | false =>
    rw [if_neg (fun h => Bool.false_ne_true (habs.1 h))]
    rfl

theorem head?_ne_slash_of_free (g : Str) (h : '/' ∉ g) : g.head? ≠ some '/' := by
  cases g with
  | nil => simp
  | cons c cs =>
    intro hc
    simp only [List.head?_cons, Option.some.injEq] at hc
    exact h (hc ▸ List.mem_cons_self c cs)

theorem getLast?_ne_slash_of_free (g : Str) (h : '/' ∉ g) : g.getLast? ≠ some '/' := by
  intro hc
  exact h (List.mem_of_getLast?_eq_some hc)

theorem getLast?_append_sep_ne_slash (X g : Str) (hg0 : g ≠ []) (hfree : '/' ∉ g) :
    (X ++ '/' :: g).getLast? ≠ some '/' := by
  intro h
  obtain ⟨ys, hys⟩ := List.getLast?_eq_some_iff.1 h
  rcases List.eq_nil_or_concat g with rfl | ⟨L, b, rfl⟩
  · exact hg0 rfl
  · have h2 : (X ++ '/' :: L) ++ [b] = ys ++ ['/'] := by
      rw [← hys]
      simp only [List.append_assoc, List.cons_append, List.concat_eq_append]
    have hb : b = '/' := (List.cons.inj (List.append_inj' h2 rfl).2).1
    apply hfree
    rw [← hb, List.concat_eq_append]
    exact List.mem_append_right _ (List.mem_singleton_self b)

theorem intercalate_concat_ne_nil (T : List Str) (g : Str) (hg : g ≠ []) :
    ['/'].intercalate (T ++ [g]) ≠ [] := by
  cases T with
  | nil =>
    rw [List.nil_append, intercalate_singleton]
    exact hg
  | cons t ts =>
    rw [intercalate_append_singleton _ _ _ (by simp)]
    intro h
    exact hg (List.append_eq_nil.1 h).2

/-- Joining anything with a plain segment yields a normalized path that ends
in that segment. -/
theorem pathJoin_plain_shape (X g : Str) (hg : PlainSegment g) :
    ∃ (abs : Bool) (T : List Str), NormalSegs (!abs) (T ++ [g]) ∧
      pathJoin [X, g] = (if abs = true then ['/'] else []) ++ ['/'].intercalate (T ++ [g]) := by
  have hg0 : g ≠ [] := hg.1
  have hfree : '/' ∉ g := hg.2.2.2
  by_cases hX : X = []
  · subst hX
    refine ⟨false, [], normalSegs_concat_plain _ [] g (normalSegs_nil _) hg, ?_⟩
    have hfilter : [([] : Str), g].filter (fun a => decide (a ≠ [])) = [g] := by
      simp [hg0]
    unfold pathJoin
    rw [hfilter]
    show pathNormalize (['/'].intercalate [g]) = _
    rw [intercalate_singleton]
    apply pathNormalize_of_body g false _ hg0
    · constructor
      · intro h
        exact absurd h (head?_ne_slash_of_free g hfree)
      · intro h
        cases h
    · exact getLast?_ne_slash_of_free g hfree
    · unfold normalizeString
      rw [splitOn_of_free '/' g hfree, List.foldl_cons, List.foldl_nil,
        normalizeStep_plain _ [] g hg]
    · rw [List.nil_append, intercalate_singleton]
      exact hg0
  · have hfilter : [X, g].filter (fun a => decide (a ≠ [])) = [X, g] := by
      simp [hg0, hX]
    have hJ : ['/'].intercalate [X, g] = X ++ '/' :: g := by
      rw [intercalate_cons_cons, intercalate_singleton]
      simp
    have hS : NormalSegs (!decide (X.head? = some '/'))
        ((X.splitOn '/').foldl (normalizeStep (!decide (X.head? = some '/'))) []) :=
      normalSegs_foldl _ _ _ (normalSegs_nil _) (splitOn_segments_free '/' X)
    refine ⟨decide (X.head? = some '/'), _, normalSegs_concat_plain _ _ g hS hg, ?_⟩
    unfold pathJoin
    rw [hfilter]
    show pathNormalize (['/'].intercalate [X, g]) = _
    rw [hJ]
    apply pathNormalize_of_body
    · simp
    · rw [List.head?_append_of_ne_nil _ hX]
      simp
    · exact getLast?_append_sep_ne_slash X g hg0 hfree
    · unfold normalizeString
      rw [splitOn_append_sep, splitOn_of_free '/' g hfree, List.foldl_append, List.foldl_cons,
        List.foldl_nil, normalizeStep_plain _ _ g hg]
    · exact intercalate_concat_ne_nil _ g hg0

theorem normalizeStep_empty (a : Bool) (R : List Str) : normalizeStep a R [] = R := by
  unfold normalizeStep
  rw [if_pos (Or.inl rfl)]

theorem filter_nonempty_pair (a b : Str) (ha : a ≠ []) (hb : b ≠ []) :
    [a, b].filter (fun x => decide (x ≠ [])) = [a, b] := by
  simp [ha, hb]

/-- Joining a normalized path that has at least one segment with a plain
segment appends `/` and the segment. -/
theorem pathJoin_normal_plain (abs : Bool) (T : List Str) (g : Str) (hT : T ≠ [])
    (hN : NormalSegs (!abs) T) (hg : PlainSegment g) :
    pathJoin [(if abs = true then ['/'] else []) ++ ['/'].intercalate T, g] =
      ((if abs = true then ['/'] else []) ++ ['/'].intercalate T) ++ '/' :: g := by
  have hg0 : g ≠ [] := hg.1
  have hfree : '/' ∉ g := hg.2.2.2
  obtain ⟨s, T', rfl⟩ : ∃ s T', T = s :: T' := by
    cases T with
    | nil => exact absurd rfl hT
    | cons s T' => exact ⟨s, T', rfl⟩
  obtain ⟨hs0, -, hsfree⟩ := hN.1 s (List.mem_cons_self s T')
  obtain ⟨c, cs, rfl⟩ : ∃ c cs, s = c :: cs := by
    cases s with
    | nil => exact absurd rfl hs0
    | cons c cs => exact ⟨c, cs, rfl⟩
  have hc : c ≠ '/' := fun e => hsfree (e ▸ List.mem_cons_self c cs)
  have hhead : (['/'].intercalate ((c :: cs) :: T')).head? = some c :=
    intercalate_head T' (c :: cs) c cs rfl
  have hbne : ['/'].intercalate ((c :: cs) :: T') ≠ [] := by
    intro h
    rw [h] at hhead
    cases hhead
  have hsplit : (['/'].intercalate ((c :: cs) :: T')).splitOn '/' = (c :: cs) :: T' :=
    List.splitOn_intercalate _ '/' (fun l hl => (hN.1 l hl).2.2) hT
  have hNg : NormalSegs (!abs) ([] ++ (((c :: cs) :: T') ++ [g])) := by
    rw [List.nil_append]
    exact normalSegs_concat_plain _ _ g hN hg
  have hfold : (((c :: cs) :: T') ++ [g]).foldl (normalizeStep (!abs)) [] =
      ((c :: cs) :: T') ++ [g] := by
    rw [foldl_normalizeStep_normal _ _ _ hNg, List.nil_append]
  have hDne : (if abs = true then ['/'] else []) ++ ['/'].intercalate ((c :: cs) :: T') ≠ [] := by
    intro h
    exact hbne (List.append_eq_nil.1 h).2
  have hfilter : [(if abs = true then ['/'] else []) ++ ['/'].intercalate ((c :: cs) :: T'),
      g].filter (fun a => decide (a ≠ [])) =
      [(if abs = true then ['/'] else []) ++ ['/'].intercalate ((c :: cs) :: T'), g] := by
    exact filter_nonempty_pair _ _ hDne hg0
  unfold pathJoin
  rw [hfilter]
  show pathNormalize (['/'].intercalate [_, g]) = _
  rw [intercalate_cons_cons, intercalate_singleton]
  have hJ : ((if abs = true then ['/'] else []) ++ ['/'].intercalate ((c :: cs) :: T')) ++
      ['/'] ++ g =
      ((if abs = true then ['/'] else []) ++ ['/'].intercalate ((c :: cs) :: T')) ++ '/' :: g := by
    simp only [List.append_assoc, List.singleton_append]
  rw [hJ]
  have key := pathNormalize_of_body
    (((if abs = true then ['/'] else []) ++ ['/'].intercalate ((c :: cs) :: T')) ++ '/' :: g)
    abs (['/'].intercalate (((c :: cs) :: T') ++ [g])) (by simp) ?_
    (getLast?_append_sep_ne_slash _ g hg0 hfree) ?_ (intercalate_concat_ne_nil _ g hg0)
  · rw [key, intercalate_append_singleton _ _ _ hT]
    simp only [List.append_assoc, List.singleton_append]
  · rw [List.head?_append_of_ne_nil _ hDne]
    cases abs with
    | true => simp
    | false =>
      simp only [Bool.false_eq_true, if_false, List.nil_append, hhead, Option.some.injEq]
      exact ⟨fun h => absurd h hc, fun h => absurd h (by simp)⟩
  · unfold normalizeString
    rw [splitOn_append_sep, splitOn_of_free '/' g hfree]
    cases abs with
    | true =>
      have hD : (if true = true then ['/'] else []) ++ ['/'].intercalate ((c :: cs) :: T') =
          [] ++ '/' :: ['/'].intercalate ((c :: cs) :: T') := by simp
      rw [hD, splitOn_append_sep, hsplit, List.splitOn_nil, List.singleton_append,
        List.cons_append, List.foldl_cons, normalizeStep_empty, hfold]
    | false =>
      have hD : (if false = true then ['/'] else []) ++ ['/'].intercalate ((c :: cs) :: T') =
          ['/'].intercalate ((c :: cs) :: T') := by simp
      rw [hD, hsplit, hfold]

theorem plainSegment_html (name : Str) (hfree : '/' ∉ name) :
    PlainSegment (name ++ ".html".toList) := by
  have hlen : (name ++ ".html".toList).length = name.length + 5 := by
    rw [List.length_append]
    rfl
  refine ⟨?_, ?_, ?_, ?_⟩
  · intro h
    rw [h] at hlen
    simp at hlen
  · intro h
    rw [h] at hlen
    have h1 : (".".toList).length = 1 := rfl
    omega
  · intro h
    rw [h] at hlen
    have h2 : ("..".toList).length = 2 := rfl
    omega
  · intro h
    rcases List.mem_append.1 h with h | h
    · exact hfree h
    · revert h
      decide

/-- The output file lies directly inside the `reddit` directory under the
archive directory. -/
theorem pathJoin_reddit_file (archiveDir name : Str) (hfree : '/' ∉ name) :
    pathJoin [pathJoin [archiveDir, "reddit".toList], name ++ ".html".toList] =
      pathJoin [archiveDir, "reddit".toList] ++ "/".toList ++ name ++ ".html".toList := by
  have hreddit : PlainSegment "reddit".toList := by
    refine ⟨by decide, by decide, by decide, by decide⟩
  obtain ⟨abs, T, hN, hD⟩ := pathJoin_plain_shape archiveDir "reddit".toList hreddit
  rw [hD, pathJoin_normal_plain abs (T ++ ["reddit".toList]) _ (by simp) hN
    (plainSegment_html name hfree)]
  simp only [List.append_assoc]
  rfl

/-- Joining two plain segments writes them with one `/` between. -/
theorem pathJoin_plain_plain (a g : Str) (ha : PlainSegment a) (hg : PlainSegment g) :
    pathJoin [a, g] = a ++ "/".toList ++ g := by
  have h := pathJoin_normal_plain false [a] g (by simp)
    (normalSegs_concat_plain _ [] a (normalSegs_nil _) ha) hg
  simp only [Bool.false_eq_true, if_false, List.nil_append, intercalate_singleton] at h
  rw [h]
  simp only [List.append_assoc]
  rfl

/-- A match of the pattern decomposes the string at its leftmost occurrence. -/
theorem matchSubreddit_some_spec (u name : Str) (h : matchSubreddit u = some name) :
    ∃ pre post, u = pre ++ "r/".toList ++ name ++ post ∧ name ≠ [] ∧ '/' ∉ name ∧
      (post = [] ∨ post.head? = some '/') ∧
      ∀ pre', SubredditAt u pre' → pre.length ≤ pre'.length := by
  induction u with
  | nil => cases h
  | cons c cs ih =>
    rcases matchSubreddit_cons c cs with ⟨hat, rest, hc, hcs, hm⟩ | ⟨hnot, hm⟩
    · rw [hm] at h
      have hname := Option.some.inj h
      subst hc hcs
      refine ⟨[], rest.dropWhile (fun x => decide (x ≠ '/')), ?_, ?_, ?_, ?_, ?_⟩
      · rw [← hname]
        show 'r' :: '/' :: rest =
          'r' :: '/' :: (rest.takeWhile (fun x => decide (x ≠ '/')) ++
            rest.dropWhile (fun x => decide (x ≠ '/')))
        rw [List.takeWhile_append_dropWhile]
      · rw [← hname]
        obtain ⟨d, post, hd, heq⟩ := hat
        rw [takeWhile_ne_nil_iff_head]
        exact ⟨d, post, hd, (List.cons.inj (List.cons.inj heq).2).2⟩
      · rw [← hname]
        intro hmem
        have := List.mem_takeWhile_imp hmem
        simp at this
      · cases hdw : rest.dropWhile (fun x => decide (x ≠ '/')) with
        | nil => exact Or.inl rfl
        | cons x xs =>
          right
          have hx := List.head?_dropWhile_not (fun x => decide (x ≠ '/')) rest
          rw [hdw] at hx
          simp only [List.head?_cons, ne_eq, decide_not, Bool.not_eq_false',
            decide_eq_true_eq] at hx
          rw [hx]
          rfl
      · intro pre' _
        exact Nat.zero_le _
    · rw [hm] at h
      obtain ⟨pre, post, hu, hne, hfree, hpost, hleft⟩ := ih h
      refine ⟨c :: pre, post, ?_, hne, hfree, hpost, ?_⟩
      · rw [hu]
        rfl
      · intro pre' hpre'
        cases pre' with
        | nil => exact absurd hpre' hnot
        | cons p q =>
          obtain ⟨d, post', hd, heq⟩ := hpre'
          have hp : c = p := (List.cons.inj heq).1
          subst hp
          have := hleft q ((subredditAt_cons c cs q).1 ⟨d, post', hd, heq⟩)
          simp only [List.length_cons]
          omega

theorem archiveWithCurl_of_match (env : Env) (u archiveDir ua name : Str)
    (hm : matchSubreddit u = some name) :
    archiveWithCurl env u archiveDir ua =
      if env.mkdirSync (pathJoin [archiveDir, "reddit".toList]) = true then
        (env.execSync (curlCommand ua
          (pathJoin [pathJoin [archiveDir, "reddit".toList], name ++ ".html".toList]) u)).map
          (fun _ => pathJoin [pathJoin [archiveDir, "reddit".toList], name ++ ".html".toList])
      else none := by
  unfold archiveWithCurl
  simp only [hm]
  by_cases hd : env.mkdirSync (pathJoin [archiveDir, "reddit".toList]) = true
  · simp only [hd, if_true]
    cases env.execSync (curlCommand ua
      (pathJoin [pathJoin [archiveDir, "reddit".toList], name ++ ".html".toList]) u) <;> rfl
  · simp only [hd, if_false]
    rfl

/-- C8: when the URL holds `r/` followed by a code unit other than `/`, the
name is the maximal run of non-slash code units after the leftmost such
occurrence, and a fetch that is issued and succeeds yields the path
`<archiveDir>/reddit/<name>.html`, a file directly inside the `reddit`
directory joined to the archive directory; a fetch command that fails, or a
URL without such an occurrence, yields `null`.  The result is a value in every
case: no exception escapes.  For an archive directory that is a single plain
name the `reddit` directory is that name, `/`, `reddit`. -/
theorem archiveWithCurl_result (env : Env) (u archiveDir ua : Str) :
    (∀ pre name post, u = pre ++ "r/".toList ++ name ++ post → name ≠ [] → '/' ∉ name →
      (post = [] ∨ post.head? = some '/') →
      (∀ pre', SubredditAt u pre' → pre.length ≤ pre'.length) →
      (env.mkdirSync (pathJoin [archiveDir, "reddit".toList]) = true →
        env.execSync (curlCommand ua
          (pathJoin [archiveDir, "reddit".toList] ++ "/".toList ++ name ++ ".html".toList)
          u) ≠ none →
        archiveWithCurl env u archiveDir ua =
          some (pathJoin [archiveDir, "reddit".toList] ++ "/".toList ++ name ++
            ".html".toList)) ∧
      (env.execSync (curlCommand ua
          (pathJoin [archiveDir, "reddit".toList] ++ "/".toList ++ name ++ ".html".toList)
          u) = none →
        archiveWithCurl env u archiveDir ua = none)) ∧
    ((∃ pre, SubredditAt u pre) →
      ∃ pre name post, u = pre ++ "r/".toList ++ name ++ post ∧ name ≠ [] ∧ '/' ∉ name ∧
        (post = [] ∨ post.head? = some '/') ∧
        ∀ pre', SubredditAt u pre' → pre.length ≤ pre'.length) ∧
    ((¬ ∃ pre, SubredditAt u pre) → archiveWithCurl env u archiveDir ua = none) ∧
    (PlainSegment archiveDir →
      pathJoin [archiveDir, "reddit".toList] = archiveDir ++ "/reddit".toList) := by
  refine ⟨?_, ?_, ?_, ?_⟩
  rotate_left 3
  · intro ha
    rw [pathJoin_plain_plain archiveDir "reddit".toList ha
      ⟨by decide, by decide, by decide, by decide⟩]
    simp only [List.append_assoc]
    rfl
  · intro pre name post hu hne hfree hpost hleft
    have hm := matchSubreddit_of_leftmost u pre name post hu hne hfree hpost hleft
    rw [archiveWithCurl_of_match env u archiveDir ua name hm,
      pathJoin_reddit_file archiveDir name hfree]
    constructor
    · intro hd hx
      rw [if_pos hd]
      cases hc : env.execSync (curlCommand ua
        (pathJoin [archiveDir, "reddit".toList] ++ "/".toList ++ name ++ ".html".toList) u) with
      | none => exact absurd hc hx
      | some o => rfl
    · intro hx
      rw [hx]
      by_cases hd : env.mkdirSync (pathJoin [archiveDir, "reddit".toList]) = true
      · rw [if_pos hd]
        rfl
      · rw [if_neg hd]
  · intro hex
    cases hm : matchSubreddit u with
    | none => exact absurd hex ((matchSubreddit_eq_none_iff u).1 hm)
    | some name =>
      obtain ⟨pre, post, hspec⟩ := matchSubreddit_some_spec u name hm
      exact ⟨pre, name, post, hspec⟩
  · intro hno
    have hm := (matchSubreddit_eq_none_iff u).2 hno
    unfold archiveWithCurl
    simp only [hm]

/-- C8 on `r/testsub` with the archive directory `archive`: the fetch succeeds
and the result is `archive/reddit/testsub.html`. -/
theorem archiveWithCurl_result_witness :
    archiveWithCurl
      (envAccepting [curlCommand "UA".toList "archive/reddit/testsub.html".toList
        "r/testsub".toList])
      "r/testsub".toList "archive".toList "UA".toList =
      some "archive/reddit/testsub.html".toList :=
  (((archiveWithCurl_result
      (envAccepting [curlCommand "UA".toList "archive/reddit/testsub.html".toList
        "r/testsub".toList])
      "r/testsub".toList "archive".toList "UA".toList).1
        [] "testsub".toList [] rfl (by decide) (by decide) (Or.inl rfl)
        (fun _ _ => Nat.zero_le _)).1 (by decide) (by decide)).trans (by decide)

/-! ## End-to-end: `https://example.com` with probe status `200` -/

set_option maxRecDepth 8000 in
/-- The run on `https://example.com` over the prior store records the mirrored
path under today's date, keeps the record of `https://example.org`, and
reports success. -/
theorem run_example_com :
    ∃ M, (run (inputsFor "https://example.com".toList) envExampleCom
        priorWorld).world.metadataFile = .json M ∧
      (run (inputsFor "https://example.com".toList) envExampleCom priorWorld).failed = false ∧
      getOwn M "https://example.com".toList =
        some { lastArchived := "2024-05-01".toList
               archivedPath := .path "archive/example.com/index.html".toList } ∧
      (entriesFor M "https://example.com".toList).length = 1 ∧
      getOwn M "https://example.org".toList =
        getOwn (loadArchiveMetadata priorWorld) "https://example.org".toList := by
  obtain ⟨M, h1, h2, h3, h4, h5⟩ :=
    run_records_outcome (inputsFor "https://example.com".toList) envExampleCom priorWorld
      "200".toList (by decide) (by decide) (by decide) (by decide) (by decide)
      (Or.inl (by decide))
  refine ⟨M, h1, h2, h3.trans (by decide), h4, h5 _ (by decide)⟩

end WebArchiver
